import Mathlib

/-!
Shallow embedding of the rssbox-seedr coordinator (Python sources under
`rssbox/`): the persistent collections (accounts, downloads, workers) are
lists of records, MongoDB single-document operations become list
transformations, and each coordinator method of `SeedrClient`, `Seedr`,
`Download` and `WatchRSS` is translated into a pure Lean function.

Conventions:
- timestamps are `Int` (UTC seconds);
- a document field that can be missing or null is an `Option`; MongoDB
  treats a missing field and an explicit null alike in every query this
  code issues, so both are `none`;
- `update_one` / `delete_one` / `find_one_and_update` touch the first
  matching document in collection (storage) order, which the list order
  models; `_id` carries a unique index in MongoDB, so at most one document
  ever matches an `_id` filter.
-/

namespace Rssbox

/-! ## Data model: stored documents -/

/-- An account document of the `accounts` collection. -/
structure Account where
  id : Nat
  token : Option String := none
  status : Option String := none
  locked_by : Option String := none
  download_id : Option Nat := none
  added_at : Option Int := none
  last_checked_at : Option Int := none
  priority : Int := 0
  deriving Repr, DecidableEq

/-- A download document of the `downloads` collection. -/
structure Download where
  id : Nat
  url : String := ""
  name : String := ""
  status : String := "PENDING"
  download_name : Option String := none
  locked_by : Option String := none
  retries : Nat := 0
  deriving Repr, DecidableEq

/-- A worker liveness document of the `workers` collection. -/
structure Worker where
  id : String
  last_heartbeat : Int
  deriving Repr, DecidableEq

/-- The shared persistent state: the three coordinator-owned collections. -/
structure DB where
  accounts : List Account := []
  downloads : List Download := []
  workers : List Worker := []
  deriving Repr, DecidableEq

/-! ## MongoDB single-document primitives on lists -/

/-- `update_one`: apply `f` to the first element satisfying `p`. -/
def updateFirst (p : α → Bool) (f : α → α) : List α → List α
  | [] => []
  | x :: xs => if p x then f x :: xs else x :: updateFirst p f xs

/-- `delete_one`: remove the first element satisfying `p`. -/
def deleteFirst (p : α → Bool) : List α → List α
  | [] => []
  | x :: xs => if p x then xs else x :: deleteFirst p xs

/-- `find_one_and_update` without a sort, returning the after-image:
update the first element satisfying `p` and also return its new value. -/
def claimFirst (p : α → Bool) (f : α → α) : List α → Option α × List α
  | [] => (none, [])
  | x :: xs =>
    if p x then (some (f x), f x :: xs)
    else
      let r := claimFirst p f xs
      (r.1, x :: r.2)

/-- The `locked_by` values this code treats as "not locked": field
missing, explicit null, or the empty string. -/
def unlocked : Option String → Bool
  | none => true
  | some s => s = ""

/-- The account statuses that denote a held lease. -/
def isLockedStatus (s : Option String) : Bool :=
  s = some "PROCESSING" || s = some "LOCKED" || s = some "UPLOADING"

/-! ## The in-memory `Seedr` object (`rssbox/modules/seedr.py`) -/

/-- The in-memory `Seedr` object as `Seedr.__init__` builds it from an
account document.  (The network token refresh is outside the model; the
token field is carried through unchanged.) -/
structure SeedrObj where
  id : Nat
  token : Option String
  status : String
  added_at : Option Int
  download_id : Option Nat
  locked_by : Option String
  priority : Int
  last_checked_at : Option Int
  deriving Repr, DecidableEq

/-- The value set of the `SeedrStatus` enum. -/
def seedrStatusValues : List String :=
  ["IDLE", "PROCESSING", "DOWNLOADING", "LOCKED", "UPLOADING", "COMPLETED", "ERROR"]

/-- `Seedr.__init__` on an account document: the status string defaults to
IDLE when the field is missing; an invalid status string raises in Python,
modelled as `none`. -/
def seedrOfAccount (a : Account) : Option SeedrObj :=
  let s := a.status.getD "IDLE"
  if seedrStatusValues.contains s then
    some { id := a.id, token := a.token, status := s, added_at := a.added_at,
           download_id := a.download_id, locked_by := a.locked_by,
           priority := a.priority, last_checked_at := a.last_checked_at }
  else none

/-- `Seedr.save`: a `$set` of all the object's fields on the account
document with this `_id`. -/
def SeedrObj.save (s : SeedrObj) (accounts : List Account) : List Account :=
  updateFirst (fun a => a.id == s.id)
    (fun a => { a with
                token := s.token, status := some s.status,
                added_at := s.added_at, download_id := s.download_id,
                locked_by := s.locked_by, priority := s.priority,
                last_checked_at := s.last_checked_at }) accounts

/-- `Seedr.update_status`: set the status; a DOWNLOADING or IDLE status
also clears `locked_by`; then save. -/
def SeedrObj.update_status (s : SeedrObj) (st : String) (accounts : List Account) :
    SeedrObj × List Account :=
  let s1 := { s with
              status := st,
              locked_by := if st == "DOWNLOADING" || st == "IDLE" then none else s.locked_by }
  (s1, s1.save accounts)

/-- The in-memory field changes of `Seedr.mark_as_idle`. -/
def SeedrObj.markIdleObj (s : SeedrObj) : SeedrObj :=
  { s with status := "IDLE", added_at := none, download_id := none, locked_by := none }

/-- `Seedr.mark_as_idle`: status IDLE, clear `added_at`, `download_id`,
`locked_by`; save. -/
def SeedrObj.mark_as_idle (s : SeedrObj) (accounts : List Account) :
    SeedrObj × List Account :=
  (s.markIdleObj, s.markIdleObj.save accounts)

/-- `Seedr.mark_as_uploading`: take the lease and set status UPLOADING. -/
def SeedrObj.mark_as_uploading (s : SeedrObj) (locker : String) (accounts : List Account) :
    SeedrObj × List Account :=
  let s1 := { s with locked_by := some locker, status := "UPLOADING" }
  (s1, s1.save accounts)

/-- `Seedr.checked`: stamp `last_checked_at`; save.  (Present in the
source; no caller invokes it.) -/
def SeedrObj.checked (s : SeedrObj) (now : Int) (accounts : List Account) :
    SeedrObj × List Account :=
  let s1 := { s with last_checked_at := some now }
  (s1, s1.save accounts)

/-! ## `Download` document methods (`rssbox/modules/download.py`) -/

/-- `Download.save`: `$set` of the full field dict with `upsert=True`; the
`_id` filter makes the updated document equal to the in-memory one. -/
def Download.save (d : Download) (ds : List Download) : List Download :=
  if ds.any (fun x => x.id == d.id) then
    updateFirst (fun x => x.id == d.id) (fun _ => d) ds
  else ds ++ [d]

/-- `Download.mark_as_pending`: status PENDING, clear `download_name` and
`locked_by`; save.  Returns the new in-memory object too. -/
def Download.mark_as_pending (d : Download) (ds : List Download) :
    Download × List Download :=
  let d1 := { d with status := "PENDING", download_name := none, locked_by := none }
  (d1, d1.save ds)

/-- `Download.mark_as_processing`: status PROCESSING, set the cache-given
`download_name`, clear `locked_by`; save. -/
def Download.mark_as_processing (d : Download) (dname : Option String) (ds : List Download) :
    Download × List Download :=
  let d1 := { d with status := "PROCESSING", download_name := dname, locked_by := none }
  (d1, d1.save ds)

/-- `Download.unlock`: clear `locked_by`; save. -/
def Download.unlock (d : Download) (ds : List Download) : List Download :=
  ({ d with locked_by := none }).save ds

/-- `Download.delete`: `delete_one` by `_id`. -/
def Download.delete (d : Download) (ds : List Download) : List Download :=
  deleteFirst (fun x => x.id == d.id) ds

/-- `Download.mark_as_failed`: a hard failure increments `retries`; at 5
or more retries the row is deleted, otherwise it is marked pending. -/
def Download.mark_as_failed (d : Download) (soft : Bool) (ds : List Download) :
    List Download :=
  let d1 := if soft then d else { d with retries := d.retries + 1 }
  if 5 ≤ d1.retries then d1.delete ds
  else (d1.mark_as_pending ds).2

/-! ## `Seedr` transactional pair operations

Each of these reads `self.download`, the `Download` object the caller has
already resolved and cached (in `check_downloads` it is fetched before any
of them can run); the cached object is passed explicitly. -/

/-- `Seedr.get_download`: resolve `download_id` in the downloads
collection. -/
def SeedrObj.getDownload (s : SeedrObj) (ds : List Download) : Option Download :=
  match s.download_id with
  | none => none
  | some did => ds.find? (fun d => d.id == did)

/-- `Seedr.mark_as_failed`: transaction of account `mark_as_idle` and
download `mark_as_failed`. -/
def SeedrObj.mark_as_failed (s : SeedrObj) (d : Download) (soft : Bool) (db : DB) : DB :=
  { db with accounts := (s.mark_as_idle db.accounts).2,
            downloads := d.mark_as_failed soft db.downloads }

/-- `Seedr.mark_as_completed`: transaction of account `mark_as_idle` and
download `delete`. -/
def SeedrObj.mark_as_completed (s : SeedrObj) (d : Download) (db : DB) : DB :=
  { db with accounts := (s.mark_as_idle db.accounts).2,
            downloads := d.delete db.downloads }

/-- `Seedr.reset`: transaction of account `mark_as_idle` and download
`mark_as_pending`. -/
def SeedrObj.reset (s : SeedrObj) (d : Download) (db : DB) : DB :=
  { db with accounts := (s.mark_as_idle db.accounts).2,
            downloads := (d.mark_as_pending db.downloads).2 }

/-- The default `timeout` argument of `Seedr.download_timeout`:
60 * 60 * 2.5 seconds. -/
def downloadTimeoutSeconds : Int := 9000

/-- `Seedr.download_timeout`: when `added_at` is set and lies more than
2.5 hours in the past, reset the pair and report true; otherwise change
nothing and report false. -/
def SeedrObj.download_timeout (s : SeedrObj) (d : Download) (now : Int) (db : DB) :
    Bool × DB :=
  match s.added_at with
  | some t => if t + downloadTimeoutSeconds < now then (true, s.reset d db) else (false, db)
  | none => (false, db)

/-- `Seedr.mark_as_downloading`: record the accepted download on the
account (DOWNLOADING, `download_id`, `added_at := now`, lease cleared) and
mark the download processing, in one transaction. -/
def SeedrObj.mark_as_downloading (s : SeedrObj) (d : Download) (dname : Option String)
    (now : Int) (db : DB) : DB :=
  let s1 := { s with
              download_id := some d.id, added_at := some now,
              status := "DOWNLOADING", locked_by := none }
  { db with accounts := s1.save db.accounts,
            downloads := (d.mark_as_processing dname db.downloads).2 }

/-! ## `SeedrClient` store operations (`rssbox/seedr_client.py`) -/

/-- The account filter of `get_free_seedr`: status IDLE, missing, or the
empty string. -/
def freeStatus (a : Account) : Bool :=
  a.status == some "IDLE" || a.status == none || a.status == some ""

/-- Left-to-right scan keeping the current best: a later element wins
only with strictly greater `priority`. -/
def pickMaxAux (c : Account) : List Account → Account
  | [] => c
  | a :: rest => pickMaxAux (if c.priority < a.priority then a else c) rest

/-- The first element of maximal `priority`: the document a
`find_one_and_update` with `sort priority: -1` picks among the matches
(natural order breaks ties). -/
def pickMaxPriority : List Account → Option Account
  | [] => none
  | a :: rest => some (pickMaxAux a rest)

/-- The `find_one_and_update` of `get_free_seedr`: pick a free account of
highest priority, `$set` status PROCESSING and `locked_by`, and return
the pre-update document (the call does not request the after-image). -/
def get_free_seedr_raw (wid : String) (db : DB) : Option Account × DB :=
  match pickMaxPriority (db.accounts.filter freeStatus) with
  | none => (none, db)
  | some a =>
    let accountsAfter := updateFirst (fun x => x.id == a.id)
      (fun x => { x with status := some "PROCESSING", locked_by := some wid }) db.accounts
    (some a, { db with accounts := accountsAfter })

/-- `SeedrClient.get_free_seedr`: `None` when no document matched,
otherwise the `Seedr` object built from the returned pre-image. -/
def get_free_seedr (wid : String) (db : DB) : Option SeedrObj × DB :=
  let r := get_free_seedr_raw wid db
  (match r.1 with
   | none => none
   | some a => seedrOfAccount a, r.2)

/-- `SeedrClient.get_pending_download`: atomically claim the first
unlocked PENDING download, returning the after-image. -/
def get_pending_download (wid : String) (db : DB) : Option Download × DB :=
  let r := claimFirst (fun d => d.status == "PENDING" && unlocked d.locked_by)
    (fun d => { d with locked_by := some wid }) db.downloads
  (r.1, { db with downloads := r.2 })

/-- Stable insertion of an account into a priority-descending list: the
inserted element (earlier in natural order) goes before every element of
equal or lower priority. -/
def insertByPriorityDesc (a : Account) : List Account → List Account
  | [] => [a]
  | b :: bs => if a.priority < b.priority then b :: insertByPriorityDesc a bs else a :: b :: bs

/-- Stable sort by `priority` descending, the order of the cursor
`find(..., sort priority: -1)`. -/
def sortByPriorityDesc (l : List Account) : List Account :=
  l.foldr insertByPriorityDesc []

/-- The candidate filter of `get_downloads_to_check`: status DOWNLOADING
and no lease. -/
def checkCandidate (a : Account) : Bool :=
  a.status == some "DOWNLOADING" && unlocked a.locked_by

/-- The `$set` applied when the lease of `get_downloads_to_check`
succeeds: status LOCKED, `locked_by` the worker id. -/
def lockAcc (wid : String) (a : Account) : Account :=
  { a with status := some "LOCKED", locked_by := some wid }

/-- One iteration of the locking loop of `get_downloads_to_check`: a
conditional `find_one_and_update` (this `_id`, still unlocked) that
appends the after-image when the document was won. -/
def leaseStep (wid : String) (st : List Account × List Account) (a : Account) :
    List Account × List Account :=
  let r := claimFirst (fun x => x.id == a.id && unlocked x.locked_by)
    (fun x => lockAcc wid x) st.2
  match r.1 with
  | some la => (st.1 ++ [la], r.2)
  | none => (st.1, r.2)

/-- `SeedrClient.get_downloads_to_check`: read up to `limit` unlocked
DOWNLOADING accounts in priority-descending order, then lock each one
that is still unlocked, collecting the after-images; the
`last_checked_at` field is not written. -/
def get_downloads_to_check (wid : String) (limit : Nat) (db : DB) :
    List SeedrObj × DB :=
  let raw := (sortByPriorityDesc (db.accounts.filter checkCandidate)).take limit
  let res := raw.foldl (leaseStep wid) ([], db.accounts)
  (res.1.filterMap seedrOfAccount, { db with accounts := res.2 })

/-! ## The stale-lease reaper (`clean_stale_seedrs_and_workers`) -/

/-- The status an orphaned account is rewritten to: LOCKED and UPLOADING
fall back to DOWNLOADING, anything else (PROCESSING) to IDLE. -/
def mapOrphanStatus (s : Option String) : String :=
  if s == some "LOCKED" || s == some "UPLOADING" then "DOWNLOADING" else "IDLE"

/-- The aggregation match of `process_stale_seedrs`: a locked-status
account whose `locked_by` joins to no worker, or to a stale-heartbeat
worker, or names a deleted stale worker id. -/
def accountOrphanMatch (workers : List Worker) (staleIds : List String)
    (threshold : Int) (a : Account) : Bool :=
  isLockedStatus a.status &&
    (let joined := workers.filter (fun w => a.locked_by == some w.id)
     joined.isEmpty || joined.any (fun w => w.last_heartbeat < threshold) ||
       (match a.locked_by with
        | some l => staleIds.contains l
        | none => false))

/-- `process_stale_seedrs`: for each account the aggregation reports
orphaned, an `update_one` rewrites its status by `mapOrphanStatus` (from
the aggregation snapshot) and clears `locked_by`. -/
def process_stale_seedrs (staleIds : List String) (threshold : Int)
    (workers : List Worker) (accounts : List Account) : List Account :=
  let orphaned := accounts.filter (accountOrphanMatch workers staleIds threshold)
  orphaned.foldl (fun acc o =>
    updateFirst (fun x => x.id == o.id)
      (fun x => { x with status := some (mapOrphanStatus o.status), locked_by := none }) acc)
    accounts

/-- The aggregation match of `process_stale_downloads`: a PENDING or
PROCESSING download with a non-null `locked_by` whose owner is missing,
stale, or among the deleted stale workers. -/
def downloadOrphanMatch (workers : List Worker) (staleIds : List String)
    (threshold : Int) (d : Download) : Bool :=
  (d.status == "PENDING" || d.status == "PROCESSING") && !(d.locked_by == none) &&
    (let joined := workers.filter (fun w => d.locked_by == some w.id)
     joined.isEmpty || joined.any (fun w => w.last_heartbeat < threshold) ||
       (match d.locked_by with
        | some l => staleIds.contains l
        | none => false))

/-- `process_stale_downloads`: one `update_many` reverts every orphaned
download to PENDING with `locked_by` cleared. -/
def process_stale_downloads (staleIds : List String) (threshold : Int)
    (workers : List Worker) (downloads : List Download) : List Download :=
  let ids := (downloads.filter (downloadOrphanMatch workers staleIds threshold)).map (·.id)
  downloads.map (fun d =>
    if ids.contains d.id then { d with status := "PENDING", locked_by := none } else d)

/-- One reaper pass (`clean_stale_seedrs_and_workers`): compute the
40-second threshold, delete the stale workers, then reclaim orphaned
accounts and downloads against the post-deletion worker table. -/
def clean_stale_seedrs_and_workers (now : Int) (db : DB) : DB :=
  let threshold := now - 40
  let staleIds := (db.workers.filter (fun w => w.last_heartbeat < threshold)).map (·.id)
  let workersAfter := db.workers.filter (fun w => !(staleIds.contains w.id))
  { accounts := process_stale_seedrs staleIds threshold workersAfter db.accounts,
    downloads := process_stale_downloads staleIds threshold workersAfter db.downloads,
    workers := workersAfter }

/-! ## Extension filter (`Config.FILTER_EXTENSIONS`, `check_extension`) -/

/-- The default extension allow-list, split from
`Config.DEFAULT_FILTER_EXTENSIONS` (duplicates as in the source). -/
def FILTER_EXTENSIONS : List String :=
  ["mkv", "mp4", "avi", "mpg", "mpeg", "webm", "flv", "wmv", "mov", "m4v", "3gp", "ogv",
   "mkv", "avi", "mpg", "mpeg", "webm", "flv", "wmv", "mov", "m4v", "3gp", "ogv"]

/-- The extension part of `os.path.splitext` for a bare file name: the
suffix from the last dot, unless every character before that dot is
itself a dot (names made only of leading dots have no extension). -/
def splitextExt (name : String) : String :=
  let rcs := name.toList.reverse
  let after := rcs.takeWhile (fun c => c ≠ '.')
  match rcs.dropWhile (fun c => c ≠ '.') with
  | [] => ""
  | _ :: pre =>
    if pre.any (fun c => c ≠ '.') then String.mk ('.' :: after.reverse) else ""

/-- Python `str.lower` restricted to ASCII, which covers every extension
on the allow-list. -/
def asciiLower (s : String) : String := String.mk (s.toList.map Char.toLower)

/-- `SeedrClient.check_extension`: the extension without its dot,
lower-cased, must sit in the allow-list. -/
def check_extension (name : String) : Bool :=
  FILTER_EXTENSIONS.contains (asciiLower ((splitextExt name).drop 1))

/-! ## The torrent-cache listing and the upload walk -/

/-- A file row of a torrent-cache listing. -/
structure SFile where
  name : String
  size : Int := 0
  id : Nat := 0
  deriving Repr, DecidableEq

/-- A torrent row of a torrent-cache listing. -/
structure STorrent where
  name : String
  progress : Int := 0
  deriving Repr, DecidableEq

/-- A torrent-cache folder carrying the listing its `list()` RPC returns,
so the recursive walk of `process_folder` is structural. -/
inductive SFolder where
  | node (name : String) (id : Nat) (subfolders : List SFolder) (files : List SFile)
  deriving Repr

/-- The folder's display name. -/
def SFolder.name : SFolder → String
  | .node n _ _ _ => n

/-- The subfolders of the folder's listing. -/
def SFolder.subfolders : SFolder → List SFolder
  | .node _ _ subs _ => subs

/-- The files of the folder's listing. -/
def SFolder.files : SFolder → List SFile
  | .node _ _ _ fs => fs

/-- The duck-typed result of `Seedr.list`: folders, files, torrents. -/
structure SListing where
  folders : List SFolder := []
  files : List SFile := []
  torrents : List STorrent := []
  deriving Repr

/-- The variant `find_seedr` returns: a matched folder or file. -/
inductive FoundObject where
  | folder (f : SFolder)
  | file (f : SFile)
  deriving Repr

/-- `SeedrClient.find_seedr`: search the top-level folders, then the
top-level files, for an exact match on `download.download_name`. -/
def find_seedr (d : Download) (l : SListing) : Option FoundObject :=
  match l.folders.find? (fun f => some f.name == d.download_name) with
  | some f => some (.folder f)
  | none =>
    match l.files.find? (fun f => some f.name == d.download_name) with
    | some f => some (.file f)
    | none => none

/-- `SeedrClient.process_file`: a file is fetched and uploaded exactly
when its extension passes the filter; the result is the list of names
uploaded for this file. -/
def process_file (f : SFile) : List String :=
  if check_extension f.name then [f.name] else []

mutual
/-- `SeedrClient.process_folder`: upload the folder's files, then recurse
into its subfolders. -/
def process_folder : SFolder → List String
  | .node _ _ subs fs => (fs.map process_file).flatten ++ process_folders subs

/-- The `for` loop of `process_folder` over a subfolder list. -/
def process_folders : List SFolder → List String
  | [] => []
  | s :: ss => process_folder s ++ process_folders ss
end

/-- The walk `SeedrClient.upload` performs on the matched object. -/
def processObject : FoundObject → List String
  | .file f => process_file f
  | .folder f => process_folder f

/-- `SeedrClient.upload` on the error-free path: mark the account
uploading under this worker, walk the object uploading every allow-listed
leaf file, then mark the pair completed.  Returns the new state and the
uploaded names. -/
def upload (wid : String) (s : SeedrObj) (d : Download) (obj : FoundObject) (db : DB) :
    DB × List String :=
  let r := s.mark_as_uploading wid db.accounts
  let uploaded := processObject obj
  (r.1.mark_as_completed d { db with accounts := r.2 }, uploaded)

/-! ## `check_downloads` -/

/-- The external world one `check_downloads` call observes: the clock,
each account's `list()` response, and whether the upload of the matched
object raises `ConnectionError`. -/
structure Env where
  now : Int := 0
  listing : Nat → SListing := fun _ => {}
  uploadConnError : Nat → Bool := fun _ => false

/-- One iteration of the `check_downloads` loop for a leased account:
resolve the download (idle the account if it is gone), look for the named
object in the cache listing, and either upload it (failing hard on
`ConnectionError`, which strikes after `mark_as_uploading`), or time the
pair out, or keep waiting on a matching in-progress torrent, or reset the
vanished pair. -/
def checkOne (wid : String) (env : Env) (db : DB) (s : SeedrObj) : DB :=
  match s.getDownload db.downloads with
  | none => { db with accounts := (s.mark_as_idle db.accounts).2 }
  | some download =>
    let result := env.listing s.id
    match find_seedr download result with
    | some obj =>
      if env.uploadConnError s.id then
        let r := s.mark_as_uploading wid db.accounts
        r.1.mark_as_failed download false { db with accounts := r.2 }
      else (upload wid s download obj db).1
    | none =>
      let r := s.download_timeout download env.now db
      if r.1 then r.2
      else
        if result.torrents.any (fun t => t.name == download.name) then
          { db with accounts := (s.update_status "DOWNLOADING" db.accounts).2 }
        else s.reset download db

/-- `SeedrClient.check_downloads`: lease up to three unlocked DOWNLOADING
accounts and run one check iteration for each. -/
def check_downloads (wid : String) (env : Env) (db : DB) : DB :=
  let r := get_downloads_to_check wid 3 db
  r.1.foldl (checkOne wid env) r.2

/-! ## The feed watcher (`rssbox/modules/watchrss.py`) -/

/-- A parsed feed entry; `published` is the broken-down publication time
converted to a timestamp. -/
structure FeedEntry where
  link : String := ""
  title : String := ""
  published : Int
  deriving Repr, DecidableEq

/-- The consumer callback's behaviour on one batch: return a confirmation
value, or raise. -/
inductive CallbackResult where
  | ok (confirm : Bool)
  | exn
  deriving Repr, DecidableEq

/-- The observable outcome of one `WatchRSS.check` call: the stored
watermark afterwards, the batch handed to the callback, and whether the
call raised (`IndexError` on an empty feed — the only uncaught path). -/
structure WatchOutcome where
  last_saved_on : Int
  delivered : List FeedEntry := []
  raised : Bool := false
  deriving Repr, DecidableEq

/-- `WatchRSS.check`: filter the feed to entries strictly newer than the
watermark; index `entries[0]` of the raw feed for the candidate watermark
(raising `IndexError` on an empty feed before the filtered batch is
examined and before any store write); if the batch is non-empty, call the
callback — an exception is caught and leaves the watermark alone, a falsy
confirmation with `check_confirmation` leaves it alone, and otherwise the
watermark becomes `entries[0].published`. -/
def watchrss_check (lso : Int) (feed : List FeedEntry) (cb : CallbackResult)
    (check_confirmation : Bool) : WatchOutcome :=
  let entries := feed.filter (fun e => lso < e.published)
  match feed with
  | [] => { last_saved_on := lso, delivered := [], raised := true }
  | e0 :: _ =>
    if entries.isEmpty then { last_saved_on := lso }
    else
      match cb with
      | .exn => { last_saved_on := lso, delivered := entries }
      | .ok confirm =>
        if check_confirmation then
          if confirm then { last_saved_on := e0.published, delivered := entries }
          else { last_saved_on := lso, delivered := entries }
        else { last_saved_on := e0.published, delivered := entries }

/-! ## Scenario harness and concrete fixtures -/

/-- Repeated failure handling of one download: each step re-reads the
stored document and applies `Download.mark_as_failed` with the given
softness; an already-deleted document is left alone. -/
def failSeq (did : Nat) : List Bool → List Download → List Download
  | [], ds => ds
  | soft :: rest, ds =>
    match ds.find? (fun x => x.id == did) with
    | some x => failSeq did rest (x.mark_as_failed soft ds)
    | none => failSeq did rest ds

/-- Fixture: a download under processing. -/
def dl0 : Download :=
  { id := 7, url := "magnet:x", name := "Movie", status := "PROCESSING",
    download_name := some "Movie.mkv", locked_by := none, retries := 0 }

/-- Fixture: the account document paired with `dl0`. -/
def acc0 : Account :=
  { id := 1, token := none, status := some "LOCKED", locked_by := some "w1",
    download_id := some 7, added_at := some 0, last_checked_at := none, priority := 0 }

/-- Fixture: the in-memory `Seedr` built from `acc0`. -/
def sdr0 : SeedrObj :=
  { id := 1, token := none, status := "LOCKED", added_at := some 0,
    download_id := some 7, locked_by := some "w1", priority := 0, last_checked_at := none }

/-- Fixture: a one-account, one-download state. -/
def db0 : DB := { accounts := [acc0], downloads := [dl0], workers := [] }

/-- Fixture: an idle, unlocked account. -/
def accIdle : Account := { id := 1, status := some "IDLE" }

/-- Fixture: a state holding only `accIdle`. -/
def dbIdle : DB := { accounts := [accIdle] }

/-- Fixture: a low-priority DOWNLOADING account whose torrent-cache was
polled long ago. -/
def accOld : Account :=
  { id := 1, status := some "DOWNLOADING", last_checked_at := some 0, priority := 0 }

/-- Fixture: a high-priority DOWNLOADING account polled recently. -/
def accNew : Account :=
  { id := 2, status := some "DOWNLOADING", last_checked_at := some 100, priority := 5 }

/-- Fixture: the two DOWNLOADING accounts together. -/
def dbTwo : DB := { accounts := [accOld, accNew] }

/-- Fixture: an unlocked DOWNLOADING account with no paired download. -/
def accD (i : Nat) : Account := { id := i, status := some "DOWNLOADING" }

/-- Fixture: four leasable DOWNLOADING accounts and an empty queue. -/
def db4 : DB := { accounts := [accD 1, accD 2, accD 3, accD 4] }

/-- Fixture: a quiet environment (time 0, empty cache listings, no
transport errors). -/
def env0 : Env := {}

/-- Fixture: the in-memory `Seedr` built from `accIdle`. -/
def sdrIdle : SeedrObj :=
  { id := 1, token := none, status := "IDLE", added_at := none,
    download_id := none, locked_by := none, priority := 0, last_checked_at := none }

/-- The claimed lease invariant of one account document: a locked status
(PROCESSING, LOCKED, UPLOADING) exactly when `locked_by` is non-null. -/
def leaseInvariant (a : Account) : Bool :=
  isLockedStatus a.status == a.locked_by.isSome

/-- The lease invariant over a whole accounts collection. -/
def accountsInv (l : List Account) : Prop := ∀ a ∈ l, leaseInvariant a = true

/-- Claim-side notion (from the reaper claim's words): the lease owner is
live when `locked_by` names a worker record whose `last_heartbeat` is not
older than the threshold. -/
def ownerLive (workers : List Worker) (threshold : Int) (lb : Option String) : Bool :=
  match lb with
  | none => false
  | some l => workers.any (fun w => w.id == l && !(w.last_heartbeat < threshold))

/-- Claim-side description of one reaper rewrite, following the claim's
status table: an orphaned locked-status account gets `locked_by` null and
status LOCKED/UPLOADING ↦ DOWNLOADING, PROCESSING ↦ IDLE; an account with
a live owner is untouched. -/
def reapAccountSpec (workers : List Worker) (threshold : Int) (a : Account) : Account :=
  if isLockedStatus a.status && !(ownerLive workers threshold a.locked_by) then
    { a with
      status := some (if a.status == some "PROCESSING" then "IDLE" else "DOWNLOADING"),
      locked_by := none }
  else a

/-- Fixture: a worker with a fresh heartbeat. -/
def wLive : Worker := { id := "wL", last_heartbeat := 100 }

/-- Fixture: an account locked by a worker that has no record. -/
def accOrph : Account := { id := 1, status := some "UPLOADING", locked_by := some "wD" }

/-- Fixture: an account locked by the live worker. -/
def accHeld : Account := { id := 2, status := some "PROCESSING", locked_by := some "wL" }

/-- Fixture: the reaper scenario state. -/
def dbReap : DB := { accounts := [accOrph, accHeld], workers := [wLive] }

/-! ## Lemmas about the collection primitives -/

theorem find?_updateFirst_self {α : Type} (p : α → Bool) (f : α → α)
    (hf : ∀ a, p a = true → p (f a) = true) :
    ∀ l : List α, (updateFirst p f l).find? p = (l.find? p).map f := by
  intro l
  induction l with
  | nil => rfl
  | cons x xs ih =>
    by_cases hx : p x = true
    · simp [updateFirst, hx, List.find?_cons, hf x hx]
    · have hx' : p x = false := by simpa using hx
      simp [updateFirst, hx', List.find?_cons, ih]

theorem find?_updateFirst_other {α : Type} (p q : α → Bool) (f : α → α)
    (hqf : ∀ a, q (f a) = q a) (hpq : ∀ a, p a = true → q a = false) :
    ∀ l : List α, (updateFirst p f l).find? q = l.find? q := by
  intro l
  induction l with
  | nil => rfl
  | cons x xs ih =>
    by_cases hx : p x = true
    · have hq : q x = false := hpq x hx
      simp [updateFirst, hx, List.find?_cons, hqf, hq]
    · have hx' : p x = false := by simpa using hx
      by_cases hq : q x = true
      · simp [updateFirst, hx', List.find?_cons, hq]
      · have hq' : q x = false := by simpa using hq
        simp [updateFirst, hx', List.find?_cons, hq', ih]

theorem updateFirst_of_forall_not {α : Type} (p : α → Bool) (f : α → α) :
    ∀ l : List α, (∀ a ∈ l, p a = false) → updateFirst p f l = l := by
  intro l
  induction l with
  | nil => intro _; rfl
  | cons x xs ih =>
    intro h
    have hx := h x (by simp)
    simp [updateFirst, hx, ih fun a ha => h a (by simp [ha])]

theorem claimFirst_eq {α : Type} (p : α → Bool) (f : α → α) :
    ∀ l : List α, claimFirst p f l = ((l.find? p).map f, updateFirst p f l) := by
  intro l
  induction l with
  | nil => rfl
  | cons x xs ih =>
    by_cases hx : p x = true
    · simp [claimFirst, hx, updateFirst, List.find?_cons]
    · have hx' : p x = false := by simpa using hx
      simp [claimFirst, hx', updateFirst, List.find?_cons, ih]

theorem find?_key_of_mem_nodup {α : Type} (key : α → Nat) (a : α) :
    ∀ l : List α, a ∈ l → (l.map key).Nodup →
      l.find? (fun x => key x == key a) = some a := by
  intro l
  induction l with
  | nil => intro h; cases h
  | cons x xs ih =>
    intro hmem hnd
    rcases List.mem_cons.mp hmem with h | h
    · subst h; simp [List.find?_cons]
    · have hx : key x ≠ key a := by
        intro hkey
        have : key a ∈ xs.map key := List.mem_map.mpr ⟨a, h, rfl⟩
        rw [List.map_cons, List.nodup_cons] at hnd
        exact hnd.1 (hkey ▸ this)
      have hnd' : (xs.map key).Nodup := by
        rw [List.map_cons, List.nodup_cons] at hnd
        exact hnd.2
      simp [List.find?_cons, hx, ih h hnd']

theorem find?_deleteFirst_key {α : Type} (key : α → Nat) (k : Nat) :
    ∀ l : List α, (l.map key).Nodup →
      (deleteFirst (fun x => key x == k) l).find? (fun x => key x == k) = none := by
  intro l
  induction l with
  | nil => intro _; rfl
  | cons x xs ih =>
    intro hnd
    rw [List.map_cons, List.nodup_cons] at hnd
    by_cases hx : key x = k
    · have : deleteFirst (fun x => key x == k) (x :: xs) = xs := by
        simp [deleteFirst, hx]
      rw [this, List.find?_eq_none]
      intro y hy
      simp only [beq_iff_eq]
      intro hyk
      exact hnd.1 (by rw [hx, ← hyk]; exact List.mem_map.mpr ⟨y, hy, rfl⟩)
    · have hx' : (key x == k) = false := by simpa using hx
      simp [deleteFirst, hx', List.find?_cons, ih hnd.2]

theorem find?_deleteFirst_other {α : Type} (p q : α → Bool)
    (hpq : ∀ a, p a = true → q a = false) :
    ∀ l : List α, (deleteFirst p l).find? q = l.find? q := by
  intro l
  induction l with
  | nil => rfl
  | cons x xs ih =>
    by_cases hx : p x = true
    · simp [deleteFirst, hx, List.find?_cons, hpq x hx]
    · have hx' : p x = false := by simpa using hx
      by_cases hq : q x = true
      · simp [deleteFirst, hx', List.find?_cons, hq]
      · have hq' : q x = false := by simpa using hq
        simp [deleteFirst, hx', List.find?_cons, hq', ih]


theorem updateFirst_first_match_self {α : Type} (p : α → Bool) (f : α → α) :
    ∀ l : List α, ∀ y, l.find? p = some y → f y = y → updateFirst p f l = l := by
  intro l
  induction l with
  | nil => intro y h; cases h
  | cons x xs ih =>
    intro y h hy
    by_cases hx : p x = true
    · rw [List.find?_cons_of_pos _ hx] at h
      cases h
      simp [updateFirst, hx, hy]
    · have hx' : p x = false := by simpa using hx
      rw [List.find?_cons_of_neg _ (by simp [hx'])] at h
      simp [updateFirst, hx', ih y h hy]

/-! ## Computation lemmas for the document operations -/

theorem mark_as_pending_of_mem (d : Download) (ds : List Download) (hmem : d ∈ ds) :
    (d.mark_as_pending ds).2 =
      updateFirst (fun x => x.id == d.id)
        (fun _ => { d with status := "PENDING", download_name := none, locked_by := none })
        ds := by
  have hany : (ds.any fun x => x.id == d.id) = true :=
    List.any_eq_true.mpr ⟨d, hmem, by simp⟩
  simp [Download.mark_as_pending, Download.save, hany]

theorem mark_as_failed_eq_pending (d : Download) (soft : Bool) (ds : List Download)
    (hmem : d ∈ ds) (hlt : (if soft then d.retries else d.retries + 1) < 5) :
    Download.mark_as_failed d soft ds =
      updateFirst (fun x => x.id == d.id)
        (fun _ => { d with
                    status := "PENDING", download_name := none, locked_by := none,
                    retries := if soft then d.retries else d.retries + 1 }) ds := by
  have hany : (ds.any fun x => x.id == d.id) = true :=
    List.any_eq_true.mpr ⟨d, hmem, by simp⟩
  cases soft with
  | true =>
    have h5 : ¬ 5 ≤ d.retries := by simp at hlt; omega
    simp [Download.mark_as_failed, Download.mark_as_pending, Download.save, h5, hany]
  | false =>
    have h5 : ¬ 5 ≤ d.retries + 1 := by simp at hlt; omega
    simp [Download.mark_as_failed, Download.mark_as_pending, Download.save, h5, hany]

theorem mark_as_failed_eq_delete (d : Download) (soft : Bool) (ds : List Download)
    (hge : 5 ≤ (if soft then d.retries else d.retries + 1)) :
    Download.mark_as_failed d soft ds = deleteFirst (fun x => x.id == d.id) ds := by
  cases soft with
  | true =>
    have h5 : 5 ≤ d.retries := by simp at hge; omega
    simp [Download.mark_as_failed, Download.delete, h5]
  | false =>
    have h5 : 5 ≤ d.retries + 1 := by simp at hge; omega
    simp [Download.mark_as_failed, Download.delete, h5]

theorem download_timeout_of_none (s : SeedrObj) (d : Download) (now : Int) (db : DB)
    (h : s.added_at = none) : s.download_timeout d now db = (false, db) := by
  unfold SeedrObj.download_timeout
  rw [h]

theorem download_timeout_of_some (s : SeedrObj) (d : Download) (now : Int) (db : DB)
    (t : Int) (h : s.added_at = some t) :
    s.download_timeout d now db =
      if t + downloadTimeoutSeconds < now then (true, s.reset d db) else (false, db) := by
  unfold SeedrObj.download_timeout
  rw [h]

theorem failSeq_cons (did : Nat) (soft : Bool) (rest : List Bool) (ds : List Download)
    (x : Download) (h : ds.find? (fun y => y.id == did) = some x) :
    failSeq did (soft :: rest) ds = failSeq did rest (x.mark_as_failed soft ds) := by
  show (match ds.find? (fun y => y.id == did) with
        | some x => failSeq did rest (x.mark_as_failed soft ds)
        | none => failSeq did rest ds) = _
  rw [h]

/-- Retry bookkeeping of repeated failures: from a stored document with
`retries = 0`, any number of soft failures followed by one hard failure
leaves the stored document pending with `retries = 1`. -/
theorem failSeq_softs_then_hard :
    ∀ (n : Nat) (ds : List Download) (q : Download),
      ds.find? (fun x => x.id == q.id) = some q → q.retries = 0 →
      (failSeq q.id (List.replicate n true ++ [false]) ds).find?
          (fun x => x.id == q.id) =
        some { q with status := "PENDING", download_name := none, locked_by := none,
                      retries := 1 } := by
  intro n
  induction n with
  | zero =>
    intro ds q h hr
    have hmem := List.mem_of_find?_eq_some h
    rw [List.replicate_zero, List.nil_append,
      failSeq_cons q.id false [] ds q h]
    show (q.mark_as_failed false ds).find? _ = _
    rw [mark_as_failed_eq_pending q false ds hmem (by simp [hr])]
    rw [find?_updateFirst_self _ _ (fun a _ => by simp), h]
    simp [hr]
  | succ k ih =>
    intro ds q h hr
    have hmem := List.mem_of_find?_eq_some h
    rw [List.replicate_succ, List.cons_append,
      failSeq_cons q.id true (List.replicate k true ++ [false]) ds q h]
    rw [mark_as_failed_eq_pending q true ds hmem (by simp [hr])]
    have hfind : (updateFirst (fun x => x.id == q.id)
        (fun _ => { q with
                    status := "PENDING", download_name := none, locked_by := none,
                    retries := q.retries })
        ds).find? (fun x => x.id == q.id) =
        some { q with
               status := "PENDING", download_name := none, locked_by := none,
               retries := q.retries } := by
      rw [find?_updateFirst_self _ _ (fun a _ => by simp), h]
      rfl
    have happ := ih (updateFirst (fun x => x.id == q.id)
        (fun _ => { q with
                    status := "PENDING", download_name := none, locked_by := none,
                    retries := q.retries }) ds)
      { q with
        status := "PENDING", download_name := none, locked_by := none,
        retries := q.retries }
      (by simpa using hfind) (by simpa using hr)
    simpa using happ

/-- C5: `mark_as_failed(soft)` leaves `retries` unchanged when soft and
increments it by exactly 1 when hard; the download is then deleted when
`retries` reaches 5 and marked PENDING otherwise, while the paired
account is written IDLE in the same transaction; and from `retries = 0`,
any number of soft failures followed by one hard failure leaves
`retries = 1`. -/
theorem C5_mark_as_failed_retry_policy (s : SeedrObj) (d : Download) (db : DB)
    (soft : Bool) (hmem : d ∈ db.downloads)
    (hnd : (db.downloads.map (fun x => x.id)).Nodup) :
    ((if soft then d.retries else d.retries + 1) < 5 →
      (s.mark_as_failed d soft db).downloads.find? (fun x => x.id == d.id) =
        some { d with
               status := "PENDING", download_name := none, locked_by := none,
               retries := if soft then d.retries else d.retries + 1 }) ∧
    (5 ≤ (if soft then d.retries else d.retries + 1) →
      (s.mark_as_failed d soft db).downloads.find? (fun x => x.id == d.id) = none) ∧
    ((s.mark_as_failed d soft db).accounts.find? (fun x => x.id == s.id) =
      (db.accounts.find? (fun x => x.id == s.id)).map (fun a =>
        { a with
          token := s.token, status := some "IDLE", added_at := none,
          download_id := none, locked_by := none, priority := s.priority,
          last_checked_at := s.last_checked_at })) ∧
    (d.retries = 0 →
      ∀ n : Nat,
        (failSeq d.id (List.replicate n true ++ [false]) db.downloads).find?
            (fun x => x.id == d.id) =
          some { d with
                 status := "PENDING", download_name := none, locked_by := none,
                 retries := 1 }) := by
  have hfind : db.downloads.find? (fun x => x.id == d.id) = some d := by
    simpa using find?_key_of_mem_nodup (fun x => x.id) d db.downloads hmem hnd
  refine ⟨?_, ?_, ?_, ?_⟩
  · intro hlt
    show (Download.mark_as_failed d soft db.downloads).find? _ = _
    rw [mark_as_failed_eq_pending d soft db.downloads hmem hlt]
    rw [find?_updateFirst_self _ _ (fun a _ => by simp), hfind]
    rfl
  · intro hge
    show (Download.mark_as_failed d soft db.downloads).find? _ = _
    rw [mark_as_failed_eq_delete d soft db.downloads hge]
    exact find?_deleteFirst_key (fun x => x.id) d.id db.downloads (by simpa using hnd)
  · exact find?_updateFirst_self (fun x => x.id == s.id)
      (fun a => { a with
                  token := s.token, status := some "IDLE", added_at := none,
                  download_id := none, locked_by := none, priority := s.priority,
                  last_checked_at := s.last_checked_at })
      (fun a ha => by simpa using ha) db.accounts
  · intro hr n
    exact failSeq_softs_then_hard n db.downloads d hfind hr

/-- C5 witness: hard failure of a zero-retry download in a concrete
one-download state. -/
theorem C5_witness :
    (dl0 ∈ db0.downloads ∧ (db0.downloads.map (fun x => x.id)).Nodup) ∧
    ((if false then dl0.retries else dl0.retries + 1) < 5 →
      (sdr0.mark_as_failed dl0 false db0).downloads.find? (fun x => x.id == dl0.id) =
        some { dl0 with
               status := "PENDING", download_name := none, locked_by := none,
               retries := if false then dl0.retries else dl0.retries + 1 }) :=
  ⟨⟨by decide, by decide⟩,
   (C5_mark_as_failed_retry_policy sdr0 dl0 db0 false (by decide) (by decide)).1⟩

/-- C6: `download_timeout` resets the pair and returns true exactly when
`added_at` is set and `added_at + 2.5 h` lies strictly before now; at the
boundary (`added_at + 2.5 h = now`) and below, nothing changes and it
returns false; on a timeout the account is written IDLE with
`download_id`, `added_at`, `locked_by` null, and the download PENDING
with `download_name` and `locked_by` cleared and `retries` unchanged. -/
theorem C6_download_timeout_boundary (s : SeedrObj) (d : Download) (db : DB) (now : Int)
    (hd : s.getDownload db.downloads = some d) :
    ((s.download_timeout d now db).1 = true ↔
      ∃ t, s.added_at = some t ∧ t + downloadTimeoutSeconds < now) ∧
    ((∀ t, s.added_at = some t → ¬ t + downloadTimeoutSeconds < now) →
      s.download_timeout d now db = (false, db)) ∧
    (∀ t, s.added_at = some t → t + downloadTimeoutSeconds = now →
      s.download_timeout d now db = (false, db)) ∧
    (∀ t, s.added_at = some t → t + downloadTimeoutSeconds < now →
      ((s.download_timeout d now db).2.accounts.find? (fun x => x.id == s.id) =
        (db.accounts.find? (fun x => x.id == s.id)).map (fun a =>
          { a with
            token := s.token, status := some "IDLE", added_at := none,
            download_id := none, locked_by := none, priority := s.priority,
            last_checked_at := s.last_checked_at }) ∧
       (s.download_timeout d now db).2.downloads.find? (fun x => x.id == d.id) =
         (db.downloads.find? (fun x => x.id == d.id)).map (fun _ =>
           { d with status := "PENDING", download_name := none, locked_by := none }))) := by
  have hdmem : d ∈ db.downloads := by
    unfold SeedrObj.getDownload at hd
    cases hdid : s.download_id with
    | none => rw [hdid] at hd; cases hd
    | some did => rw [hdid] at hd; exact List.mem_of_find?_eq_some hd
  refine ⟨?_, ?_, ?_, ?_⟩
  · cases ha : s.added_at with
    | none => rw [download_timeout_of_none s d now db ha]; simp [ha]
    | some t =>
      rw [download_timeout_of_some s d now db t ha]
      by_cases hlt : t + downloadTimeoutSeconds < now
      · simp [hlt, ha]
      · simp [hlt, ha]
  · intro hcond
    cases ha : s.added_at with
    | none => exact download_timeout_of_none s d now db ha
    | some t => rw [download_timeout_of_some s d now db t ha, if_neg (hcond t ha)]
  · intro t ha heq
    rw [download_timeout_of_some s d now db t ha, if_neg (by omega)]
  · intro t ha hlt
    rw [download_timeout_of_some s d now db t ha, if_pos hlt]
    constructor
    · exact find?_updateFirst_self (fun x => x.id == s.id)
        (fun a => { a with
                    token := s.token, status := some "IDLE", added_at := none,
                    download_id := none, locked_by := none, priority := s.priority,
                    last_checked_at := s.last_checked_at })
        (fun a ha' => by simpa using ha') db.accounts
    · show ((d.mark_as_pending db.downloads).2).find? _ = _
      rw [mark_as_pending_of_mem d db.downloads hdmem]
      exact find?_updateFirst_self (fun x => x.id == d.id)
        (fun _ => { d with status := "PENDING", download_name := none, locked_by := none })
        (fun a _ => by simp) db.downloads

/-- C6 witness: the fixture pair times out at `now = 20000` (its
`added_at` is 0). -/
theorem C6_witness :
    (sdr0.getDownload db0.downloads = some dl0) ∧
    ((sdr0.download_timeout dl0 20000 db0).1 = true ↔
      ∃ t, sdr0.added_at = some t ∧ t + downloadTimeoutSeconds < 20000) :=
  ⟨by decide, (C6_download_timeout_boundary sdr0 dl0 db0 20000 (by decide)).1⟩

/-- C10: on a feed document with no entries, `WatchRSS.check` raises
`IndexError` from `entries[0]` before testing the filtered batch for
emptiness; the stored watermark is untouched and nothing is delivered. -/
theorem C10_watchrss_empty_feed_raises (lso : Int) (cb : CallbackResult) (cc : Bool) :
    watchrss_check lso [] cb cc =
      { last_saved_on := lso, delivered := [], raised := true } := rfl

/-- C9 counterexample: watermark 10; the feed lists an old entry
(published 5) first and a new entry (published 20) second.  The batch is
non-empty, the callback confirms, and the watermark is rewritten to
`entries[0].published = 5`, strictly below its previous value — the
persisted watermark is not monotonic over arbitrary feed documents. -/
theorem C9_counterexample :
    (watchrss_check 10 [{ published := 5 }, { published := 20 }]
        (CallbackResult.ok true) true).last_saved_on = 5 ∧
    ((5 : Int) < 10) ∧
    (watchrss_check 10 [{ published := 5 }, { published := 20 }]
        (CallbackResult.ok true) true).delivered = [{ published := 20 }] := by
  refine ⟨?_, by decide, ?_⟩ <;> rfl

/-- C9 (amended): the watermark never decreases provided the feed lists
its newest entry first (the code indexes `entries[0]` for the candidate
watermark); unconditionally, a callback exception, or a falsy
confirmation while `check_confirmation` is enabled, leaves the stored
watermark exactly as it was, so the same entries are filtered in again on
the next poll. -/
theorem C9_watermark_policy (lso : Int) (feed : List FeedEntry)
    (cb : CallbackResult) (cc : Bool) :
    ((∀ e0, feed.head? = some e0 → ∀ e ∈ feed, e.published ≤ e0.published) →
      lso ≤ (watchrss_check lso feed cb cc).last_saved_on) ∧
    ((watchrss_check lso feed CallbackResult.exn cc).last_saved_on = lso) ∧
    ((watchrss_check lso feed (CallbackResult.ok false) true).last_saved_on = lso) := by
  refine ⟨?_, ?_, ?_⟩
  · intro hsorted
    cases feed with
    | nil => simp [watchrss_check]
    | cons e0 rest =>
      simp only [watchrss_check]
      by_cases hemp : ((e0 :: rest).filter (fun e => decide (lso < e.published))).isEmpty
      · simp [hemp]
      · have hne : (e0 :: rest).filter (fun e => decide (lso < e.published)) ≠ [] := by
          simpa [List.isEmpty_iff] using hemp
        obtain ⟨e, hemem⟩ := List.exists_mem_of_ne_nil _ hne
        have he2 := List.mem_filter.mp hemem
        have hlt : lso < e.published := by simpa using he2.2
        have hle : e.published ≤ e0.published := hsorted e0 rfl e he2.1
        cases cb with
        | exn => simp [hemp]
        | ok confirm =>
          cases cc <;> cases confirm <;> simp [hemp] <;> omega
  · cases feed with
    | nil => rfl
    | cons e0 rest =>
      simp only [watchrss_check]
      by_cases hemp : ((e0 :: rest).filter (fun e => decide (lso < e.published))).isEmpty <;>
        simp [hemp]
  · cases feed with
    | nil => rfl
    | cons e0 rest =>
      simp only [watchrss_check]
      by_cases hemp : ((e0 :: rest).filter (fun e => decide (lso < e.published))).isEmpty <;>
        simp [hemp]

/-- C9 witness: a newest-first feed advances the watermark upward. -/
theorem C9_witness :
    (10 : Int) ≤ (watchrss_check 10 [{ published := 20 }, { published := 5 }]
      (CallbackResult.ok true) true).last_saved_on :=
  (C9_watermark_policy 10 [{ published := 20 }, { published := 5 }]
    (CallbackResult.ok true) true).1 (by decide)

theorem pickMaxAux_mem (c : Account) : ∀ l : List Account, pickMaxAux c l ∈ c :: l := by
  intro l
  induction l generalizing c with
  | nil => simp [pickMaxAux]
  | cons a rest ih =>
    have hstep : pickMaxAux c (a :: rest) =
        pickMaxAux (if c.priority < a.priority then a else c) rest := rfl
    rw [hstep]
    by_cases hc : c.priority < a.priority
    · rw [if_pos hc]
      exact List.mem_cons_of_mem c (ih a)
    · rw [if_neg hc]
      rcases List.mem_cons.mp (ih c) with h | h
      · rw [h]; exact List.mem_cons_self _ _
      · exact List.mem_cons_of_mem c (List.mem_cons_of_mem a h)

theorem pickMaxAux_max (c : Account) :
    ∀ l : List Account, ∀ b ∈ c :: l, b.priority ≤ (pickMaxAux c l).priority := by
  intro l
  induction l generalizing c with
  | nil =>
    intro b hb
    rcases List.mem_cons.mp hb with h | h
    · exact h ▸ le_refl _
    · cases h
  | cons a rest ih =>
    intro b hb
    have hstep : pickMaxAux c (a :: rest) =
        pickMaxAux (if c.priority < a.priority then a else c) rest := rfl
    rw [hstep]
    by_cases hc : c.priority < a.priority
    · rw [if_pos hc]
      rcases List.mem_cons.mp hb with h | h
      · have ha := ih a a (List.mem_cons_self a rest)
        subst h; omega
      · rcases List.mem_cons.mp h with h2 | h2
        · rw [h2]; exact ih a a (List.mem_cons_self a rest)
        · exact ih a b (List.mem_cons_of_mem a h2)
    · rw [if_neg hc]
      rcases List.mem_cons.mp hb with h | h
      · subst h; exact ih b b (List.mem_cons_self b rest)
      · rcases List.mem_cons.mp h with h2 | h2
        · have hcb := ih c c (List.mem_cons_self c rest)
          subst h2; omega
        · exact ih c b (List.mem_cons_of_mem c h2)

theorem pickMaxPriority_none_iff (l : List Account) :
    pickMaxPriority l = none ↔ l = [] := by
  cases l <;> simp [pickMaxPriority]

theorem pickMaxPriority_mem (l : List Account) (a : Account)
    (h : pickMaxPriority l = some a) : a ∈ l := by
  cases l with
  | nil => cases h
  | cons x rest =>
    have : pickMaxAux x rest = a := by simpa [pickMaxPriority] using h
    exact this ▸ pickMaxAux_mem x rest

theorem pickMaxPriority_max (l : List Account) (a : Account)
    (h : pickMaxPriority l = some a) : ∀ b ∈ l, b.priority ≤ a.priority := by
  cases l with
  | nil => cases h
  | cons x rest =>
    have hx : pickMaxAux x rest = a := by simpa [pickMaxPriority] using h
    intro b hb
    exact hx ▸ pickMaxAux_max x rest b hb

/-- C3 counterexample: one IDLE account; `get_free_seedr` does update the
stored document to PROCESSING with the worker's lease, but the record it
returns is the pre-update image — its status field reads IDLE, not
PROCESSING, and its `locked_by` is null, not the worker id. -/
theorem C3_counterexample :
    (get_free_seedr "w1" dbIdle).1 =
      some { id := 1, token := none, status := "IDLE", added_at := none,
             download_id := none, locked_by := none, priority := 0,
             last_checked_at := none } ∧
    ("IDLE" : String) ≠ "PROCESSING" ∧
    (get_free_seedr "w1" dbIdle).2.accounts =
      [{ accIdle with status := some "PROCESSING", locked_by := some "w1" }] := by
  refine ⟨by decide, by decide, by decide⟩

/-- C3 (amended): `get_free_seedr` atomically selects an account with
status IDLE, missing or empty, preferring the highest priority, and sets
its stored status to PROCESSING and `locked_by` to the worker id, leaving
every other account untouched; it returns null exactly when no such
account exists, and otherwise returns the `Seedr` built from the
*before*-image of the selected account (the call does not request the
after-image). -/
theorem C3_get_free_seedr_spec (wid : String) (db : DB)
    (hnd : (db.accounts.map (fun x => x.id)).Nodup) :
    ((get_free_seedr_raw wid db).1 = none ↔ db.accounts.filter freeStatus = []) ∧
    ((get_free_seedr_raw wid db).1 = none → get_free_seedr wid db = (none, db)) ∧
    (∀ a, (get_free_seedr_raw wid db).1 = some a →
      a ∈ db.accounts ∧ freeStatus a = true ∧
      (∀ b ∈ db.accounts, freeStatus b = true → b.priority ≤ a.priority) ∧
      (get_free_seedr wid db).1 = seedrOfAccount a ∧
      (get_free_seedr wid db).2.accounts.find? (fun x => x.id == a.id) =
        some { a with status := some "PROCESSING", locked_by := some wid } ∧
      (∀ b ∈ db.accounts, b.id ≠ a.id →
        (get_free_seedr wid db).2.accounts.find? (fun x => x.id == b.id) = some b)) := by
  refine ⟨?_, ?_, ?_⟩
  · cases hpick : pickMaxPriority (db.accounts.filter freeStatus) with
    | none =>
      constructor
      · intro _; exact (pickMaxPriority_none_iff _).mp hpick
      · intro hfil; simp [get_free_seedr_raw, hpick]
    | some a =>
      constructor
      · intro hnone; simp [get_free_seedr_raw, hpick] at hnone
      · intro hfil
        rw [hfil] at hpick
        simp [pickMaxPriority] at hpick
  · intro hnone
    cases hpick : pickMaxPriority (db.accounts.filter freeStatus) with
    | none => simp [get_free_seedr, get_free_seedr_raw, hpick]
    | some a => simp [get_free_seedr_raw, hpick] at hnone
  · intro a hsome
    cases hpick : pickMaxPriority (db.accounts.filter freeStatus) with
    | none => simp [get_free_seedr_raw, hpick] at hsome
    | some a2 =>
      have ha2 : a2 = a := by simpa [get_free_seedr_raw, hpick] using hsome
      subst ha2
      have hmemf : a2 ∈ db.accounts.filter freeStatus := pickMaxPriority_mem _ _ hpick
      have hmem : a2 ∈ db.accounts := (List.mem_filter.mp hmemf).1
      have hfree : freeStatus a2 = true := (List.mem_filter.mp hmemf).2
      have hacc : (get_free_seedr wid db).2.accounts =
          updateFirst (fun x => x.id == a2.id)
            (fun x => { x with status := some "PROCESSING", locked_by := some wid })
            db.accounts := by
        simp [get_free_seedr, get_free_seedr_raw, hpick]
      refine ⟨hmem, hfree, ?_, ?_, ?_, ?_⟩
      · intro b hb hbf
        exact pickMaxPriority_max _ _ hpick b (List.mem_filter.mpr ⟨hb, hbf⟩)
      · simp [get_free_seedr, get_free_seedr_raw, hpick]
      · have hfind : db.accounts.find? (fun x => x.id == a2.id) = some a2 := by
          simpa using find?_key_of_mem_nodup (fun x => x.id) a2 db.accounts hmem hnd
        rw [hacc, find?_updateFirst_self _ _ (fun x hx => by simpa using hx), hfind]
        rfl
      · intro b hb hbne
        have hfb : db.accounts.find? (fun x => x.id == b.id) = some b := by
          simpa using find?_key_of_mem_nodup (fun x => x.id) b db.accounts hb hnd
        have hother := find?_updateFirst_other
          (fun (x : Account) => x.id == a2.id) (fun (x : Account) => x.id == b.id)
          (fun x => { x with status := some "PROCESSING", locked_by := some wid })
          (fun x => by simp)
          (fun x hx => by
            have hx' : x.id = a2.id := by simpa using hx
            have hne : a2.id ≠ b.id := fun hh => hbne hh.symm
            simp [hx', hne])
          db.accounts
        rw [hacc, hother]
        exact hfb

/-- C3 witness: the one-IDLE-account state selects that account. -/
theorem C3_witness :
    ((dbIdle.accounts.map (fun x => x.id)).Nodup) ∧
    ((get_free_seedr_raw "w1" dbIdle).1 = none ↔
      dbIdle.accounts.filter freeStatus = []) :=
  ⟨by decide, (C3_get_free_seedr_spec "w1" dbIdle (by decide)).1⟩

theorem find?_and_of_find? {α : Type} (q1 q2 : α → Bool) :
    ∀ (l : List α) (a : α), l.find? q1 = some a → q2 a = true →
      l.find? (fun x => q1 x && q2 x) = some a := by
  intro l
  induction l with
  | nil => intro a h; cases h
  | cons x xs ih =>
    intro a h hq2
    by_cases hx : q1 x = true
    · rw [List.find?_cons_of_pos _ hx] at h
      cases h
      exact List.find?_cons_of_pos _ (by simp [hx, hq2])
    · have hx' : q1 x = false := by simpa using hx
      rw [List.find?_cons_of_neg _ (by simp [hx'])] at h
      rw [List.find?_cons_of_neg _ (by simp [hx'])]
      exact ih a h hq2

theorem find?_updateFirst_conj_self {α : Type} (keyp extra : α → Bool) (f : α → α)
    (hf : ∀ x, keyp (f x) = keyp x) :
    ∀ (l : List α) (a : α), l.find? keyp = some a → extra a = true →
      (updateFirst (fun x => keyp x && extra x) f l).find? keyp = some (f a) := by
  intro l
  induction l with
  | nil => intro a h; cases h
  | cons x xs ih =>
    intro a h hextra
    by_cases hx : keyp x = true
    · rw [List.find?_cons_of_pos _ hx] at h
      cases h
      have hcon : (keyp x && extra x) = true := by simp [hx, hextra]
      simp only [updateFirst, hcon, if_true]
      exact List.find?_cons_of_pos _ (by rw [hf x]; exact hx)
    · have hx' : keyp x = false := by simpa using hx
      rw [List.find?_cons_of_neg _ (by simp [hx'])] at h
      have hcon : (keyp x && extra x) = false := by simp [hx']
      simp only [updateFirst, hcon, Bool.false_eq_true, if_false]
      rw [List.find?_cons_of_neg _ (by simp [hx'])]
      exact ih a h hextra

theorem insertByPriorityDesc_perm (a : Account) :
    ∀ l : List Account, (insertByPriorityDesc a l).Perm (a :: l) := by
  intro l
  induction l with
  | nil => simp [insertByPriorityDesc]
  | cons b bs ih =>
    show (if a.priority < b.priority then b :: insertByPriorityDesc a bs
          else a :: b :: bs).Perm _
    by_cases hc : a.priority < b.priority
    · rw [if_pos hc]
      exact (ih.cons b).trans (List.Perm.swap a b bs)
    · rw [if_neg hc]

theorem sortByPriorityDesc_perm :
    ∀ l : List Account, (sortByPriorityDesc l).Perm l := by
  intro l
  induction l with
  | nil => rfl
  | cons x xs ih =>
    show (insertByPriorityDesc x (sortByPriorityDesc xs)).Perm (x :: xs)
    exact (insertByPriorityDesc_perm x (sortByPriorityDesc xs)).trans (ih.cons x)

theorem pairwise_insertByPriorityDesc (a : Account) :
    ∀ l : List Account,
      l.Pairwise (fun x y => y.priority ≤ x.priority) →
      (insertByPriorityDesc a l).Pairwise (fun x y => y.priority ≤ x.priority) := by
  intro l
  induction l with
  | nil => intro _; simp [insertByPriorityDesc]
  | cons b bs ih =>
    intro h
    rw [List.pairwise_cons] at h
    show (if a.priority < b.priority then b :: insertByPriorityDesc a bs
          else a :: b :: bs).Pairwise _
    by_cases hc : a.priority < b.priority
    · rw [if_pos hc]
      refine List.pairwise_cons.mpr ⟨?_, ih h.2⟩
      intro y hy
      have hy2 := (insertByPriorityDesc_perm a bs).mem_iff.mp hy
      rcases List.mem_cons.mp hy2 with h2 | h2
      · rw [h2]; omega
      · exact h.1 y h2
    · rw [if_neg hc]
      refine List.pairwise_cons.mpr ⟨?_, List.pairwise_cons.mpr ⟨h.1, h.2⟩⟩
      intro y hy
      rcases List.mem_cons.mp hy with h2 | h2
      · rw [h2]; omega
      · have := h.1 y h2; omega

theorem pairwise_sortByPriorityDesc :
    ∀ l : List Account,
      (sortByPriorityDesc l).Pairwise (fun x y => y.priority ≤ x.priority) := by
  intro l
  induction l with
  | nil => simp [sortByPriorityDesc]
  | cons x xs ih => exact pairwise_insertByPriorityDesc x (sortByPriorityDesc xs) ih

/-- Behaviour of the locking loop of `get_downloads_to_check` over a
batch of distinct-id, currently-stored, unlocked candidates: every
candidate is won and locked, its after-image collected in order, and
every other document is untouched. -/
theorem lease_fold_spec (wid : String) :
    ∀ (raws done accounts : List Account),
      (∀ a ∈ raws, accounts.find? (fun x => x.id == a.id) = some a) →
      (∀ a ∈ raws, unlocked a.locked_by = true) →
      (raws.map (fun x => x.id)).Nodup →
      (raws.foldl (leaseStep wid) (done, accounts)).1 =
          done ++ raws.map (lockAcc wid) ∧
      (∀ a ∈ raws, (raws.foldl (leaseStep wid) (done, accounts)).2.find?
          (fun x => x.id == a.id) = some (lockAcc wid a)) ∧
      (∀ k : Nat, (∀ a ∈ raws, a.id ≠ k) →
        (raws.foldl (leaseStep wid) (done, accounts)).2.find? (fun x => x.id == k) =
          accounts.find? (fun x => x.id == k)) := by
  intro raws
  induction raws with
  | nil =>
    intro done accounts _ _ _
    refine ⟨by simp, by simp, fun k _ => rfl⟩
  | cons a rest ih =>
    intro done accounts hfd hunl hnd
    have hamem : a ∈ a :: rest := List.mem_cons_self a rest
    have hfp : accounts.find? (fun x => x.id == a.id && unlocked x.locked_by) = some a :=
      find?_and_of_find? _ _ accounts a (hfd a hamem) (hunl a hamem)
    have hstep : leaseStep wid (done, accounts) a =
        (done ++ [lockAcc wid a],
         updateFirst (fun x => x.id == a.id && unlocked x.locked_by)
           (fun x => lockAcc wid x) accounts) := by
      simp [leaseStep, claimFirst_eq, hfp]
    have hidne : ∀ b ∈ rest, a.id ≠ b.id := by
      intro b hb heq
      rw [List.map_cons, List.nodup_cons] at hnd
      exact hnd.1 (heq ▸ List.mem_map.mpr ⟨b, hb, rfl⟩)
    have hnd' : (rest.map (fun x => x.id)).Nodup := by
      rw [List.map_cons, List.nodup_cons] at hnd
      exact hnd.2
    have hfd' : ∀ b ∈ rest,
        (updateFirst (fun x => x.id == a.id && unlocked x.locked_by)
          (fun x => lockAcc wid x) accounts).find? (fun x => x.id == b.id) = some b := by
      intro b hb
      rw [find?_updateFirst_other _ _ _ (fun x => by simp [lockAcc])
        (fun x hx => by
          have hxa : x.id = a.id := by
            have := hx
            simp only [Bool.and_eq_true, beq_iff_eq] at this
            exact this.1
          simp [hxa, hidne b hb])]
      exact hfd b (List.mem_cons_of_mem a hb)
    have hres := ih (done ++ [lockAcc wid a])
      (updateFirst (fun x => x.id == a.id && unlocked x.locked_by)
        (fun x => lockAcc wid x) accounts)
      hfd' (fun b hb => hunl b (List.mem_cons_of_mem a hb)) hnd'
    rw [List.foldl_cons, hstep]
    refine ⟨?_, ?_, ?_⟩
    · rw [hres.1]; simp
    · intro b hb
      rcases List.mem_cons.mp hb with h | h
      · rw [h]
        rw [hres.2.2 a.id (fun c hc heq => hidne c hc heq.symm)]
        exact find?_updateFirst_conj_self (fun x => x.id == a.id)
          (fun x => unlocked x.locked_by) (fun x => lockAcc wid x)
          (fun x => by simp [lockAcc]) accounts a (hfd a hamem) (hunl a hamem)
      · exact hres.2.1 b h
    · intro k hk
      rw [hres.2.2 k (fun c hc => hk c (List.mem_cons_of_mem a hc))]
      rw [find?_updateFirst_other _ _ _ (fun x => by simp [lockAcc])
        (fun x hx => by
          have hxa : x.id = a.id := by
            simp only [Bool.and_eq_true, beq_iff_eq] at hx
            exact hx.1
          simp [hxa, hk a hamem])]

/-- The after-image of a won lease parses back into a `Seedr` object. -/
theorem seedrOfAccount_lockAcc (wid : String) (a : Account) :
    seedrOfAccount (lockAcc wid a) =
      some { id := a.id, token := a.token, status := "LOCKED", added_at := a.added_at,
             download_id := a.download_id, locked_by := some wid,
             priority := a.priority, last_checked_at := a.last_checked_at } := rfl

theorem filterMap_seedr_lock (wid : String) :
    ∀ raws : List Account,
      ((raws.map (lockAcc wid)).filterMap seedrOfAccount) =
        raws.map (fun a =>
          { id := a.id, token := a.token, status := "LOCKED", added_at := a.added_at,
            download_id := a.download_id, locked_by := some wid,
            priority := a.priority, last_checked_at := a.last_checked_at : SeedrObj }) := by
  intro raws
  induction raws with
  | nil => rfl
  | cons x xs ih =>
    simp only [List.map_cons, List.filterMap_cons, seedrOfAccount_lockAcc, ih]

/-- C7 counterexample: two unlocked DOWNLOADING accounts — id 1 with the
oldest `last_checked_at` (0) but priority 0, id 2 checked recently (100)
with priority 5.  A lease of one account takes id 2: the batch is ordered
by priority descending, not by `last_checked_at` ascending, and the
locked account's `last_checked_at` keeps its old value instead of being
set to the current time. -/
theorem C7_counterexample :
    ((get_downloads_to_check "w" 1 dbTwo).1.map (fun o => o.id) = [2]) ∧
    ((get_downloads_to_check "w" 1 dbTwo).2.accounts.find? (fun x => x.id == 1) =
      some accOld) ∧
    ((get_downloads_to_check "w" 1 dbTwo).2.accounts.find? (fun x => x.id == 2) =
      some { accNew with status := some "LOCKED", locked_by := some "w" }) ∧
    ((get_downloads_to_check "w" 1 dbTwo).1.map (fun o => o.last_checked_at) =
      [some 100]) ∧
    accOld.last_checked_at = some 0 ∧ accNew.last_checked_at = some 100 := by
  refine ⟨by decide, by decide, by decide, by decide, by decide, by decide⟩

/-- C7 (amended): each `get_downloads_to_check` call atomically selects
up to `limit` accounts with status DOWNLOADING and no live lease, taking
candidates in *descending priority* order, and sets each one's status to
LOCKED and `locked_by` to the calling worker's id; `last_checked_at` is
left untouched (the `checked` stamp exists in the source but is never
invoked), and all other accounts are unchanged. -/
theorem C7_get_downloads_to_check_spec (wid : String) (limit : Nat) (db : DB)
    (hnd : (db.accounts.map (fun x => x.id)).Nodup) :
    (get_downloads_to_check wid limit db).1.length ≤ limit ∧
    ((get_downloads_to_check wid limit db).1.Pairwise
      (fun x y => y.priority ≤ x.priority)) ∧
    (∀ o ∈ (get_downloads_to_check wid limit db).1, ∃ a, a ∈ db.accounts ∧
      a.status = some "DOWNLOADING" ∧ unlocked a.locked_by = true ∧
      o.id = a.id ∧ o.status = "LOCKED" ∧ o.locked_by = some wid ∧
      o.last_checked_at = a.last_checked_at ∧
      (get_downloads_to_check wid limit db).2.accounts.find? (fun x => x.id == a.id) =
        some { a with status := some "LOCKED", locked_by := some wid }) ∧
    (∀ b ∈ db.accounts,
      (∀ o ∈ (get_downloads_to_check wid limit db).1, o.id ≠ b.id) →
      (get_downloads_to_check wid limit db).2.accounts.find? (fun x => x.id == b.id) =
        some b) := by
  set raw : List Account :=
    (sortByPriorityDesc (db.accounts.filter checkCandidate)).take limit with hraw
  have hperm := sortByPriorityDesc_perm (db.accounts.filter checkCandidate)
  have hrawsub : ∀ a ∈ raw, a ∈ db.accounts.filter checkCandidate := by
    intro a ha
    exact hperm.mem_iff.mp (List.take_subset _ _ ha)
  have hmemacc : ∀ a ∈ raw, a ∈ db.accounts :=
    fun a ha => (List.mem_filter.mp (hrawsub a ha)).1
  have hcand : ∀ a ∈ raw, checkCandidate a = true :=
    fun a ha => (List.mem_filter.mp (hrawsub a ha)).2
  have hst : ∀ a ∈ raw, a.status = some "DOWNLOADING" := by
    intro a ha
    have := hcand a ha
    simp [checkCandidate] at this
    exact this.1
  have hunl : ∀ a ∈ raw, unlocked a.locked_by = true := by
    intro a ha
    have := hcand a ha
    simp [checkCandidate] at this
    exact this.2
  have hfd : ∀ a ∈ raw, db.accounts.find? (fun x => x.id == a.id) = some a := by
    intro a ha
    simpa using find?_key_of_mem_nodup (fun x => x.id) a db.accounts (hmemacc a ha) hnd
  have hfltnd : ((db.accounts.filter checkCandidate).map (fun x => x.id)).Nodup :=
    ((List.filter_sublist _).map (fun (x : Account) => x.id)).nodup hnd
  have hsortnd : ((sortByPriorityDesc (db.accounts.filter checkCandidate)).map
      (fun x => x.id)).Nodup :=
    ((hperm.map (fun x => x.id)).nodup_iff).mpr hfltnd
  have hrawnd : (raw.map (fun x => x.id)).Nodup :=
    ((List.take_sublist _ _).map (fun (x : Account) => x.id)).nodup hsortnd
  have hfold := lease_fold_spec wid raw [] db.accounts hfd hunl hrawnd
  have hget : get_downloads_to_check wid limit db =
      ((raw.foldl (leaseStep wid) ([], db.accounts)).1.filterMap seedrOfAccount,
       { db with accounts := (raw.foldl (leaseStep wid) ([], db.accounts)).2 }) := rfl
  have hobjs : (get_downloads_to_check wid limit db).1 = raw.map (fun a =>
      { id := a.id, token := a.token, status := "LOCKED", added_at := a.added_at,
        download_id := a.download_id, locked_by := some wid,
        priority := a.priority, last_checked_at := a.last_checked_at : SeedrObj }) := by
    rw [hget]
    show (raw.foldl (leaseStep wid) ([], db.accounts)).1.filterMap seedrOfAccount = _
    rw [hfold.1, List.nil_append, filterMap_seedr_lock]
  have hpost : (get_downloads_to_check wid limit db).2.accounts =
      (raw.foldl (leaseStep wid) ([], db.accounts)).2 := by
    rw [hget]
  refine ⟨?_, ?_, ?_, ?_⟩
  · rw [hobjs, List.length_map]
    exact le_trans (le_of_eq rfl) (by rw [hraw]; exact List.length_take_le _ _)
  · rw [hobjs]
    have hsorted : raw.Pairwise (fun x y => y.priority ≤ x.priority) :=
      (pairwise_sortByPriorityDesc (db.accounts.filter checkCandidate)).sublist
        (List.take_sublist _ _)
    exact hsorted.map _ (fun a b h => h)
  · intro o ho
    rw [hobjs] at ho
    obtain ⟨a, haraw, rfl⟩ := List.mem_map.mp ho
    refine ⟨a, hmemacc a haraw, hst a haraw, hunl a haraw, rfl, rfl, rfl, rfl, ?_⟩
    rw [hpost]
    simpa [lockAcc] using hfold.2.1 a haraw
  · intro b hb hne
    have hids : ∀ a ∈ raw, a.id ≠ b.id := by
      intro a ha heq
      refine hne { id := a.id, token := a.token, status := "LOCKED",
                   added_at := a.added_at, download_id := a.download_id,
                   locked_by := some wid, priority := a.priority,
                   last_checked_at := a.last_checked_at }
        ?_ heq
      rw [hobjs]
      exact List.mem_map_of_mem _ ha
    rw [hpost, hfold.2.2 b.id hids]
    simpa using find?_key_of_mem_nodup (fun x => x.id) b db.accounts hb hnd

/-- C7 witness: the two-account fixture, leasing a single account. -/
theorem C7_witness :
    ((dbTwo.accounts.map (fun x => x.id)).Nodup) ∧
    (get_downloads_to_check "w" 1 dbTwo).1.length ≤ 1 :=
  ⟨by decide, (C7_get_downloads_to_check_spec "w" 1 dbTwo (by decide)).1⟩

/-- C4 counterexample: the matched object is a single file whose
extension (`.txt`) fails the allow-list, so zero files are uploaded; the
upload phase nevertheless marks the account IDLE (not DOWNLOADING) and
deletes the Download row (instead of keeping it) — `upload`
unconditionally calls `mark_as_completed`. -/
theorem C4_counterexample :
    ((upload "w1" sdr0 dl0
        (FoundObject.file { name := "Movie.txt", size := 5, id := 9 }) db0).2 = []) ∧
    ((upload "w1" sdr0 dl0
        (FoundObject.file { name := "Movie.txt", size := 5, id := 9 }) db0).1.accounts.map
      (fun a => a.status) = [some "IDLE"]) ∧
    ((some "IDLE" : Option String) ≠ some "DOWNLOADING") ∧
    ((upload "w1" sdr0 dl0
        (FoundObject.file { name := "Movie.txt", size := 5, id := 9 }) db0).1.downloads =
      []) := by
  refine ⟨by decide, by decide, by decide, by decide⟩

/-- C4 (amended): after the error-free upload phase for a leased account
in `check_downloads`, the account is transactionally marked IDLE and the
Download row is deleted regardless of how many files passed the extension
filter — also when zero files were uploaded; there is no revert-to-
DOWNLOADING branch in `upload`. -/
theorem C4_upload_always_completes (wid : String) (s : SeedrObj) (d : Download)
    (obj : FoundObject) (db : DB)
    (hnd : (db.downloads.map (fun x => x.id)).Nodup) :
    ((upload wid s d obj db).1.accounts.find? (fun x => x.id == s.id) =
      (db.accounts.find? (fun x => x.id == s.id)).map (fun a =>
        { a with
          token := s.token, status := some "IDLE", added_at := none,
          download_id := none, locked_by := none, priority := s.priority,
          last_checked_at := s.last_checked_at })) ∧
    ((upload wid s d obj db).1.downloads.find? (fun x => x.id == d.id) = none) ∧
    ((upload wid s d obj db).2 = processObject obj) := by
  refine ⟨?_, ?_, rfl⟩
  · have h1 := find?_updateFirst_self (fun (x : Account) => x.id == s.id)
      (fun a => { a with
                  token := s.token, status := some "UPLOADING",
                  added_at := s.added_at, download_id := s.download_id,
                  locked_by := some wid, priority := s.priority,
                  last_checked_at := s.last_checked_at })
      (fun a ha => by simpa using ha) db.accounts
    have h2 := find?_updateFirst_self (fun (x : Account) => x.id == s.id)
      (fun a => { a with
                  token := s.token, status := some "IDLE",
                  added_at := none, download_id := none,
                  locked_by := none, priority := s.priority,
                  last_checked_at := s.last_checked_at })
      (fun a ha => by simpa using ha)
      (updateFirst (fun (x : Account) => x.id == s.id)
        (fun a => { a with
                    token := s.token, status := some "UPLOADING",
                    added_at := s.added_at, download_id := s.download_id,
                    locked_by := some wid, priority := s.priority,
                    last_checked_at := s.last_checked_at }) db.accounts)
    show (updateFirst (fun (x : Account) => x.id == s.id)
        (fun a => { a with
                    token := s.token, status := some "IDLE",
                    added_at := none, download_id := none,
                    locked_by := none, priority := s.priority,
                    last_checked_at := s.last_checked_at })
        (updateFirst (fun (x : Account) => x.id == s.id)
          (fun a => { a with
                      token := s.token, status := some "UPLOADING",
                      added_at := s.added_at, download_id := s.download_id,
                      locked_by := some wid, priority := s.priority,
                      last_checked_at := s.last_checked_at }) db.accounts)).find?
        (fun x => x.id == s.id) = _
    rw [h2, h1]
    cases hfa : db.accounts.find? (fun x => x.id == s.id) with
    | none => rfl
    | some a => rfl
  · show (d.delete db.downloads).find? (fun x => x.id == d.id) = none
    exact find?_deleteFirst_key (fun x => x.id) d.id db.downloads hnd

/-- C4 witness: the fixture upload of an allow-listed file. -/
theorem C4_witness :
    ((db0.downloads.map (fun x => x.id)).Nodup) ∧
    ((upload "w1" sdr0 dl0
        (FoundObject.file { name := "Movie.mkv", size := 5, id := 9 }) db0).1.downloads.find?
      (fun x => x.id == dl0.id) = none) :=
  ⟨by decide,
   (C4_upload_always_completes "w1" sdr0 dl0
     (FoundObject.file { name := "Movie.mkv", size := 5, id := 9 }) db0 (by decide)).2.1⟩

theorem leaseFold_length_le (wid : String) :
    ∀ (raws done accounts : List Account),
      (raws.foldl (leaseStep wid) (done, accounts)).1.length ≤
        done.length + raws.length := by
  intro raws
  induction raws with
  | nil => intro done accounts; simp
  | cons a rest ih =>
    intro done accounts
    rw [List.foldl_cons]
    cases hcl : (claimFirst (fun x => x.id == a.id && unlocked x.locked_by)
        (fun x => lockAcc wid x) accounts).1 with
    | some la =>
      have hstep : leaseStep wid (done, accounts) a =
          (done ++ [la], (claimFirst (fun x => x.id == a.id && unlocked x.locked_by)
            (fun x => lockAcc wid x) accounts).2) := by
        simp [leaseStep, hcl]
      rw [hstep]
      have := ih (done ++ [la])
        ((claimFirst (fun x => x.id == a.id && unlocked x.locked_by)
          (fun x => lockAcc wid x) accounts).2)
      simp only [List.length_append, List.length_cons, List.length_nil] at this ⊢
      omega
    | none =>
      have hstep : leaseStep wid (done, accounts) a =
          (done, (claimFirst (fun x => x.id == a.id && unlocked x.locked_by)
            (fun x => lockAcc wid x) accounts).2) := by
        simp [leaseStep, hcl]
      rw [hstep]
      have := ih done
        ((claimFirst (fun x => x.id == a.id && unlocked x.locked_by)
          (fun x => lockAcc wid x) accounts).2)
      simp only [List.length_cons] at this ⊢
      omega

theorem find?_save_other (s1 : SeedrObj) (accounts : List Account) (k : Nat)
    (hk : s1.id ≠ k) :
    (s1.save accounts).find? (fun x => x.id == k) =
      accounts.find? (fun x => x.id == k) := by
  unfold SeedrObj.save
  exact find?_updateFirst_other _ _ _ (fun a => by simp)
    (fun a ha => by
      have : a.id = s1.id := by simpa using ha
      simp [this, hk]) accounts

theorem download_timeout_other (s : SeedrObj) (d : Download) (now : Int) (db : DB)
    (k : Nat) (hk : s.id ≠ k) :
    (s.download_timeout d now db).2.accounts.find? (fun x => x.id == k) =
      db.accounts.find? (fun x => x.id == k) := by
  cases ha : s.added_at with
  | none => rw [download_timeout_of_none s d now db ha]
  | some t =>
    rw [download_timeout_of_some s d now db t ha]
    by_cases hlt : t + downloadTimeoutSeconds < now
    · rw [if_pos hlt]
      exact find?_save_other s.markIdleObj db.accounts k hk
    · rw [if_neg hlt]

/-- One `check_downloads` iteration only ever writes the account document
of the seedr it processes: every other account id reads back unchanged. -/
theorem checkOne_other (wid : String) (env : Env) (db : DB) (s : SeedrObj) (k : Nat)
    (hk : s.id ≠ k) :
    (checkOne wid env db s).accounts.find? (fun x => x.id == k) =
      db.accounts.find? (fun x => x.id == k) := by
  cases hgd : s.getDownload db.downloads with
  | none =>
    simp only [checkOne, hgd]
    exact find?_save_other s.markIdleObj db.accounts k hk
  | some download =>
    simp only [checkOne, hgd]
    cases hfs : find_seedr download (env.listing s.id) with
    | some obj =>
      simp only [hfs]
      by_cases hue : env.uploadConnError s.id = true
      · simp only [hue, if_true]
        show (({ s with locked_by := some wid, status := "UPLOADING" } :
            SeedrObj).markIdleObj.save
            (({ s with locked_by := some wid, status := "UPLOADING" } :
              SeedrObj).save db.accounts)).find? (fun x => x.id == k) = _
        exact (find?_save_other
            ({ s with locked_by := some wid, status := "UPLOADING" } :
              SeedrObj).markIdleObj
            (({ s with locked_by := some wid, status := "UPLOADING" } :
              SeedrObj).save db.accounts) k hk).trans
          (find?_save_other
            ({ s with locked_by := some wid, status := "UPLOADING" } : SeedrObj)
            db.accounts k hk)
      · have hue' : env.uploadConnError s.id = false := by simpa using hue
        simp only [hue', Bool.false_eq_true, if_false]
        show (({ s with locked_by := some wid, status := "UPLOADING" } :
            SeedrObj).markIdleObj.save
            (({ s with locked_by := some wid, status := "UPLOADING" } :
              SeedrObj).save db.accounts)).find? (fun x => x.id == k) = _
        exact (find?_save_other
            ({ s with locked_by := some wid, status := "UPLOADING" } :
              SeedrObj).markIdleObj
            (({ s with locked_by := some wid, status := "UPLOADING" } :
              SeedrObj).save db.accounts) k hk).trans
          (find?_save_other
            ({ s with locked_by := some wid, status := "UPLOADING" } : SeedrObj)
            db.accounts k hk)
    | none =>
      simp only [hfs]
      by_cases ht : (s.download_timeout download env.now db).1 = true
      · simp only [ht, if_true]
        exact download_timeout_other s download env.now db k hk
      · have ht' : (s.download_timeout download env.now db).1 = false := by simpa using ht
        simp only [ht', Bool.false_eq_true, if_false]
        by_cases htor : ((env.listing s.id).torrents.any
            (fun t => t.name == download.name)) = true
        · simp only [htor, if_true]
          exact find?_save_other _ _ k hk
        · have htor' : ((env.listing s.id).torrents.any
              (fun t => t.name == download.name)) = false := by simpa using htor
          simp only [htor', Bool.false_eq_true, if_false]
          exact find?_save_other _ _ k hk

theorem checkFold_other (wid : String) (env : Env) :
    ∀ (objs : List SeedrObj) (db : DB) (k : Nat),
      (∀ o ∈ objs, o.id ≠ k) →
      (objs.foldl (checkOne wid env) db).accounts.find? (fun x => x.id == k) =
        db.accounts.find? (fun x => x.id == k) := by
  intro objs
  induction objs with
  | nil => intro db k _; rfl
  | cons o rest ih =>
    intro db k h
    rw [List.foldl_cons]
    exact (ih (checkOne wid env db o) k
      (fun x hx => h x (List.mem_cons_of_mem o hx))).trans
      (checkOne_other wid env db o k (h o (List.mem_cons_self o rest)))

/-- C8 counterexample: four leasable DOWNLOADING accounts and an empty
queue.  `check_downloads` leases three, finds no download record for any
of them, idles them, and returns — with zero successful completions
(nothing was deleted from the queue) while leasable work (account 4) still
remains, and with no wall-clock logic anywhere in the body.  It does not
run until "exactly 3 successful completions". -/
theorem C8_counterexample :
    ((check_downloads "w" env0 db4).accounts.map (fun a => a.status) =
      [some "IDLE", some "IDLE", some "IDLE", some "DOWNLOADING"]) ∧
    ((check_downloads "w" env0 db4).accounts.map (fun a => a.locked_by) =
      [none, none, none, none]) ∧
    ((check_downloads "w" env0 db4).downloads = db4.downloads) ∧
    (db4.downloads = []) := by
  refine ⟨by decide, by decide, by decide, by decide⟩

/-- C8 (amended): one `check_downloads` invocation leases at most 3
accounts (the count cap is a batch-size limit, not a successful-
completion counter) and then processes exactly that batch: every account
outside the leased batch is untouched.  There is no wall-clock cap in the
body. -/
theorem C8_check_downloads_batch_bound (wid : String) (env : Env) (db : DB)
    (hnd : (db.accounts.map (fun x => x.id)).Nodup) :
    (get_downloads_to_check wid 3 db).1.length ≤ 3 ∧
    (∀ b ∈ db.accounts,
      (∀ o ∈ (get_downloads_to_check wid 3 db).1, o.id ≠ b.id) →
      (check_downloads wid env db).accounts.find? (fun x => x.id == b.id) =
        some b) := by
  set raw : List Account :=
    (sortByPriorityDesc (db.accounts.filter checkCandidate)).take 3 with hraw
  have hperm := sortByPriorityDesc_perm (db.accounts.filter checkCandidate)
  have hrawsub : ∀ a ∈ raw, a ∈ db.accounts.filter checkCandidate := by
    intro a ha
    exact hperm.mem_iff.mp (List.take_subset _ _ ha)
  have hmemacc : ∀ a ∈ raw, a ∈ db.accounts :=
    fun a ha => (List.mem_filter.mp (hrawsub a ha)).1
  have hunl : ∀ a ∈ raw, unlocked a.locked_by = true := by
    intro a ha
    have := (List.mem_filter.mp (hrawsub a ha)).2
    simp [checkCandidate] at this
    exact this.2
  have hfd : ∀ a ∈ raw, db.accounts.find? (fun x => x.id == a.id) = some a := by
    intro a ha
    simpa using find?_key_of_mem_nodup (fun x => x.id) a db.accounts (hmemacc a ha) hnd
  have hfltnd : ((db.accounts.filter checkCandidate).map (fun x => x.id)).Nodup :=
    ((List.filter_sublist _).map (fun (x : Account) => x.id)).nodup hnd
  have hsortnd : ((sortByPriorityDesc (db.accounts.filter checkCandidate)).map
      (fun x => x.id)).Nodup :=
    ((hperm.map (fun x => x.id)).nodup_iff).mpr hfltnd
  have hrawnd : (raw.map (fun x => x.id)).Nodup :=
    ((List.take_sublist _ _).map (fun (x : Account) => x.id)).nodup hsortnd
  have hfold := lease_fold_spec wid raw [] db.accounts hfd hunl hrawnd
  have hget : get_downloads_to_check wid 3 db =
      ((raw.foldl (leaseStep wid) ([], db.accounts)).1.filterMap seedrOfAccount,
       { db with accounts := (raw.foldl (leaseStep wid) ([], db.accounts)).2 }) := rfl
  have hobjs : (get_downloads_to_check wid 3 db).1 = raw.map (fun a =>
      { id := a.id, token := a.token, status := "LOCKED", added_at := a.added_at,
        download_id := a.download_id, locked_by := some wid,
        priority := a.priority, last_checked_at := a.last_checked_at : SeedrObj }) := by
    rw [hget]
    show (raw.foldl (leaseStep wid) ([], db.accounts)).1.filterMap seedrOfAccount = _
    rw [hfold.1, List.nil_append, filterMap_seedr_lock]
  constructor
  · rw [hobjs, List.length_map]
    exact le_trans (le_of_eq rfl) (by rw [hraw]; exact List.length_take_le _ _)
  · intro b hb hno
    have hrun : check_downloads wid env db =
        (get_downloads_to_check wid 3 db).1.foldl (checkOne wid env)
          (get_downloads_to_check wid 3 db).2 := rfl
    rw [hrun, checkFold_other wid env _ _ b.id hno]
    have hids : ∀ a ∈ raw, a.id ≠ b.id := by
      intro a ha heq
      refine hno { id := a.id, token := a.token, status := "LOCKED",
                   added_at := a.added_at, download_id := a.download_id,
                   locked_by := some wid, priority := a.priority,
                   last_checked_at := a.last_checked_at }
        ?_ heq
      rw [hobjs]
      exact List.mem_map_of_mem _ ha
    have hpost : (get_downloads_to_check wid 3 db).2.accounts =
        (raw.foldl (leaseStep wid) ([], db.accounts)).2 := by
      rw [hget]
    rw [hpost, hfold.2.2 b.id hids]
    simpa using find?_key_of_mem_nodup (fun x => x.id) b db.accounts hb hnd

/-- C8 witness: the four-account fixture leases at most three. -/
theorem C8_witness :
    ((db4.accounts.map (fun x => x.id)).Nodup) ∧
    (get_downloads_to_check "w" 3 db4).1.length ≤ 3 :=
  ⟨by decide, (C8_check_downloads_batch_bound "w" env0 db4 (by decide)).1⟩

theorem accountsInv_updateFirst (p : Account → Bool) (f : Account → Account)
    (hf : ∀ a, leaseInvariant (f a) = true) :
    ∀ l : List Account, accountsInv l → accountsInv (updateFirst p f l) := by
  intro l
  induction l with
  | nil => intro _; exact fun a ha => absurd ha (List.not_mem_nil a)
  | cons x xs ih =>
    intro h
    by_cases hx : p x = true
    · intro a ha
      simp only [updateFirst, hx, if_true] at ha
      rcases List.mem_cons.mp ha with h2 | h2
      · rw [h2]; exact hf x
      · exact h a (List.mem_cons_of_mem x h2)
    · have hx' : p x = false := by simpa using hx
      intro a ha
      simp only [updateFirst, hx', Bool.false_eq_true, if_false] at ha
      rcases List.mem_cons.mp ha with h2 | h2
      · rw [h2]; exact h x (List.mem_cons_self x xs)
      · exact ih (fun b hb => h b (List.mem_cons_of_mem x hb)) a h2

theorem accountsInv_leaseFold (wid : String) :
    ∀ (raws : List Account) (st : List Account × List Account),
      accountsInv st.2 → accountsInv ((raws.foldl (leaseStep wid) st).2) := by
  intro raws
  induction raws with
  | nil => intro st h; exact h
  | cons a rest ih =>
    intro st h
    rw [List.foldl_cons]
    refine ih (leaseStep wid st a) ?_
    have hstep : (leaseStep wid st a).2 =
        updateFirst (fun x => x.id == a.id && unlocked x.locked_by)
          (fun x => lockAcc wid x) st.2 := by
      rw [leaseStep, claimFirst_eq]
      cases ((st.2.find? (fun x => x.id == a.id && unlocked x.locked_by)).map
        (fun x => lockAcc wid x)) <;> rfl
    rw [hstep]
    refine accountsInv_updateFirst _ _ (fun x => ?_) st.2 h
    rfl

theorem isLockedStatus_mapOrphanStatus (s : Option String) :
    isLockedStatus (some (mapOrphanStatus s)) = false := by
  unfold mapOrphanStatus
  by_cases h : (s == some "LOCKED" || s == some "UPLOADING") = true
  · rw [if_pos h]; rfl
  · rw [if_neg h]; rfl

theorem accountsInv_orphanFold :
    ∀ (orphans accounts : List Account), accountsInv accounts →
      accountsInv (orphans.foldl (fun acc o =>
        updateFirst (fun x => x.id == o.id)
          (fun x => { x with
                      status := some (mapOrphanStatus o.status),
                      locked_by := none }) acc) accounts) := by
  intro orphans
  induction orphans with
  | nil => intro accounts h; exact h
  | cons o os ih =>
    intro accounts h
    rw [List.foldl_cons]
    refine ih _ ?_
    refine accountsInv_updateFirst _ _ (fun x => ?_) accounts h
    simp [leaseInvariant, isLockedStatus_mapOrphanStatus]

/-- C1 counterexample: the invariant holds of an IDLE, unlocked account,
but `update_status(PROCESSING)` on its `Seedr` (one of the operations the
claim quantifies over) writes status PROCESSING while leaving
`locked_by` null — the invariant is broken after the update. -/
theorem C1_counterexample :
    (leaseInvariant accIdle = true) ∧
    ((sdrIdle.update_status "PROCESSING" [accIdle]).2.map leaseInvariant =
      [false]) := by
  refine ⟨by decide, by decide⟩

/-- C1 (amended): assuming the lease invariant — status in {PROCESSING,
LOCKED, UPLOADING} iff `locked_by` is non-null — holds of every account
before, it holds after `get_free_seedr`, the lease step of
`check_downloads`, `mark_as_downloading`, `mark_as_uploading`,
`mark_as_idle`, `update_status` restricted to the statuses the code
actually passes it (DOWNLOADING; IDLE is equally safe), `reset`,
`mark_as_failed`, `mark_as_completed`, and a reaper pass.  Unrestricted
`update_status` with a locked status breaks it (see the
counterexample). -/
theorem C1_operations_preserve_lease_invariant (wid : String) (db : DB)
    (hinv : accountsInv db.accounts) :
    accountsInv (get_free_seedr wid db).2.accounts ∧
    (∀ limit : Nat, accountsInv (get_downloads_to_check wid limit db).2.accounts) ∧
    (∀ (s : SeedrObj) (d : Download) (dname : Option String) (now : Int),
      accountsInv (s.mark_as_downloading d dname now db).accounts) ∧
    (∀ (s : SeedrObj) (w : String), accountsInv (s.mark_as_uploading w db.accounts).2) ∧
    (∀ s : SeedrObj, accountsInv (s.mark_as_idle db.accounts).2) ∧
    (∀ (s : SeedrObj) (st : String), (st = "DOWNLOADING" ∨ st = "IDLE") →
      accountsInv (s.update_status st db.accounts).2) ∧
    (∀ (s : SeedrObj) (d : Download), accountsInv (s.reset d db).accounts) ∧
    (∀ (s : SeedrObj) (d : Download) (soft : Bool),
      accountsInv (s.mark_as_failed d soft db).accounts) ∧
    (∀ (s : SeedrObj) (d : Download), accountsInv (s.mark_as_completed d db).accounts) ∧
    (∀ now : Int, accountsInv (clean_stale_seedrs_and_workers now db).accounts) := by
  refine ⟨?_, ?_, ?_, ?_, ?_, ?_, ?_, ?_, ?_, ?_⟩
  · cases hpick : pickMaxPriority (db.accounts.filter freeStatus) with
    | none =>
      have heq : get_free_seedr wid db = (none, db) := by
        simp [get_free_seedr, get_free_seedr_raw, hpick]
      rw [heq]; exact hinv
    | some a =>
      have heq : (get_free_seedr wid db).2.accounts =
          updateFirst (fun x => x.id == a.id)
            (fun x => { x with status := some "PROCESSING", locked_by := some wid })
            db.accounts := by
        simp [get_free_seedr, get_free_seedr_raw, hpick]
      rw [heq]
      refine accountsInv_updateFirst _ _ (fun x => ?_) db.accounts hinv
      rfl
  · intro limit
    exact accountsInv_leaseFold wid _ ([], db.accounts) hinv
  · intro s d dname now
    refine accountsInv_updateFirst _ _ (fun x => ?_) db.accounts hinv
    rfl
  · intro s w
    refine accountsInv_updateFirst _ _ (fun x => ?_) db.accounts hinv
    rfl
  · intro s
    refine accountsInv_updateFirst _ _ (fun x => ?_) db.accounts hinv
    rfl
  · intro s st hst
    rcases hst with h | h
    · rw [h]
      refine accountsInv_updateFirst _ _ (fun x => ?_) db.accounts hinv
      rfl
    · rw [h]
      refine accountsInv_updateFirst _ _ (fun x => ?_) db.accounts hinv
      rfl
  · intro s d
    refine accountsInv_updateFirst _ _ (fun x => ?_) db.accounts hinv
    rfl
  · intro s d soft
    refine accountsInv_updateFirst _ _ (fun x => ?_) db.accounts hinv
    rfl
  · intro s d
    refine accountsInv_updateFirst _ _ (fun x => ?_) db.accounts hinv
    rfl
  · intro now
    exact accountsInv_orphanFold _ db.accounts hinv

/-- C1 witness: the one-IDLE-account state satisfies the invariant and
keeps it across `get_free_seedr`. -/
theorem C1_witness :
    (accountsInv dbIdle.accounts) ∧
    accountsInv (get_free_seedr "w1" dbIdle).2.accounts :=
  ⟨by unfold accountsInv; decide,
   (C1_operations_preserve_lease_invariant "w1" dbIdle
     (by unfold accountsInv; decide)).1⟩

theorem map_nodup_inj {α β : Type} (key : α → β) :
    ∀ (l : List α) (a b : α), (l.map key).Nodup → a ∈ l → b ∈ l →
      key a = key b → a = b := by
  intro l
  induction l with
  | nil => intro a b _ ha; cases ha
  | cons x xs ih =>
    intro a b hnd ha hb hk
    rw [List.map_cons, List.nodup_cons] at hnd
    rcases List.mem_cons.mp ha with h1 | h1 <;> rcases List.mem_cons.mp hb with h2 | h2
    · rw [h1, h2]
    · exfalso
      apply hnd.1
      have hkey : key x = key b := by rw [← h1]; exact hk
      rw [hkey]
      exact List.mem_map.mpr ⟨b, h2, rfl⟩
    · exfalso
      apply hnd.1
      have hkey : key x = key a := by rw [← h2]; exact hk.symm
      rw [hkey]
      exact List.mem_map.mpr ⟨a, h1, rfl⟩
    · exact ih a b hnd.2 h1 h2 hk

/-- The fold of `process_stale_seedrs` over the aggregation result:
orphans from the snapshot are rewritten by the status table, everything
else is untouched. -/
theorem orphanFold_find? :
    ∀ (orphans accounts : List Account),
      (∀ o ∈ orphans, accounts.find? (fun x => x.id == o.id) = some o) →
      ((orphans.map (fun x => x.id)).Nodup) →
      (∀ o ∈ orphans,
        (orphans.foldl (fun acc o2 =>
          updateFirst (fun x => x.id == o2.id)
            (fun x => { x with
                        status := some (mapOrphanStatus o2.status),
                        locked_by := none }) acc) accounts).find?
            (fun x => x.id == o.id) =
          some { o with
                 status := some (mapOrphanStatus o.status), locked_by := none }) ∧
      (∀ k : Nat, (∀ o ∈ orphans, o.id ≠ k) →
        (orphans.foldl (fun acc o2 =>
          updateFirst (fun x => x.id == o2.id)
            (fun x => { x with
                        status := some (mapOrphanStatus o2.status),
                        locked_by := none }) acc) accounts).find?
            (fun x => x.id == k) =
          accounts.find? (fun x => x.id == k)) := by
  intro orphans
  induction orphans with
  | nil =>
    intro accounts _ _
    exact ⟨fun o ho => absurd ho (List.not_mem_nil o), fun k _ => rfl⟩
  | cons o os ih =>
    intro accounts hfd hnd
    have homem : o ∈ o :: os := List.mem_cons_self o os
    have hidne : ∀ b ∈ os, o.id ≠ b.id := by
      intro b hb heq
      rw [List.map_cons, List.nodup_cons] at hnd
      exact hnd.1 (heq ▸ List.mem_map.mpr ⟨b, hb, rfl⟩)
    have hnd' : (os.map (fun x => x.id)).Nodup := by
      rw [List.map_cons, List.nodup_cons] at hnd
      exact hnd.2
    have hfd' : ∀ b ∈ os,
        (updateFirst (fun x => x.id == o.id)
          (fun x => { x with
                      status := some (mapOrphanStatus o.status),
                      locked_by := none }) accounts).find?
          (fun x => x.id == b.id) = some b := by
      intro b hb
      rw [find?_updateFirst_other _ _ _ (fun x => by simp)
        (fun x hx => by
          have hxo : x.id = o.id := by simpa using hx
          simp [hxo, hidne b hb])]
      exact hfd b (List.mem_cons_of_mem o hb)
    have hres := ih (updateFirst (fun x => x.id == o.id)
        (fun x => { x with
                    status := some (mapOrphanStatus o.status),
                    locked_by := none }) accounts) hfd' hnd'
    rw [List.foldl_cons]
    refine ⟨?_, ?_⟩
    · intro b hb
      rcases List.mem_cons.mp hb with h | h
      · rw [h]
        rw [hres.2 o.id (fun c hc heq => hidne c hc heq.symm)]
        rw [find?_updateFirst_self _ _ (fun x hx => by simpa using hx), hfd o homem]
        rfl
      · exact hres.1 b h
    · intro k hk
      rw [hres.2 k (fun c hc => hk c (List.mem_cons_of_mem o hc))]
      rw [find?_updateFirst_other _ _ _ (fun x => by simp)
        (fun x hx => by
          have hxo : x.id = o.id := by simpa using hx
          simp [hxo, hk o homem])]

/-- The aggregation condition of `process_stale_seedrs` (joined against
the post-deletion worker table, with the deleted stale ids) agrees with
the claim-side owner-liveness test against the pre-pass worker table,
provided worker ids are unique. -/
theorem accountOrphanMatch_eq_spec (workers : List Worker) (threshold : Int)
    (hndW : (workers.map (fun w => w.id)).Nodup) (a : Account) :
    accountOrphanMatch
        (workers.filter (fun w =>
          !(((workers.filter (fun w2 => w2.last_heartbeat < threshold)).map
            (fun w2 => w2.id)).contains w.id)))
        ((workers.filter (fun w2 => w2.last_heartbeat < threshold)).map
          (fun w2 => w2.id))
        threshold a =
      (isLockedStatus a.status && !(ownerLive workers threshold a.locked_by)) := by
  cases hlb : a.locked_by with
  | none =>
    simp only [accountOrphanMatch, ownerLive, hlb]
    have hj : (workers.filter (fun w =>
        !(((workers.filter (fun w2 => w2.last_heartbeat < threshold)).map
          (fun w2 => w2.id)).contains w.id))).filter
        (fun w => (none : Option String) == some w.id) = [] :=
      List.filter_eq_nil_iff.mpr (fun w _ => by simp)
    rw [hj]
    simp
  | some l =>
    simp only [accountOrphanMatch, ownerLive, hlb]
    by_cases hex : (workers.any (fun w => w.id == l && !(w.last_heartbeat < threshold))) = true
    · obtain ⟨w0, hw0m, hw0p⟩ := List.any_eq_true.mp hex
      have hw0id : w0.id = l := by
        simp only [Bool.and_eq_true, beq_iff_eq] at hw0p
        exact hw0p.1
      have hw0live : ¬ (w0.last_heartbeat < threshold) := by
        simp only [Bool.and_eq_true, Bool.not_eq_true', decide_eq_false_iff_not] at hw0p
        exact hw0p.2
      have hnotstale : ((workers.filter (fun w2 => w2.last_heartbeat < threshold)).map
          (fun w2 => w2.id)).contains l = false := by
        cases hcon : ((workers.filter (fun w2 => w2.last_heartbeat < threshold)).map
            (fun w2 => w2.id)).contains l with
        | false => rfl
        | true =>
          exfalso
          have hmem : l ∈ (workers.filter (fun w2 => w2.last_heartbeat < threshold)).map
              (fun w2 => w2.id) := by simpa using hcon
          obtain ⟨ws, hwsmem, hwsid⟩ := List.mem_map.mp hmem
          have hws := List.mem_filter.mp hwsmem
          have heq : ws = w0 :=
            map_nodup_inj (fun w => w.id) workers ws w0 hndW hws.1 hw0m
              (by show ws.id = w0.id; rw [hwsid, hw0id])
          apply hw0live
          rw [← heq]
          simpa using hws.2
      have hw0after : w0 ∈ workers.filter (fun w =>
          !(((workers.filter (fun w2 => w2.last_heartbeat < threshold)).map
            (fun w2 => w2.id)).contains w.id)) :=
        List.mem_filter.mpr ⟨hw0m, by rw [hw0id, hnotstale]; rfl⟩
      have hjmem : w0 ∈ (workers.filter (fun w =>
          !(((workers.filter (fun w2 => w2.last_heartbeat < threshold)).map
            (fun w2 => w2.id)).contains w.id))).filter
          (fun w => (some l : Option String) == some w.id) :=
        List.mem_filter.mpr ⟨hw0after, by simp [hw0id]⟩
      have hne : ((workers.filter (fun w =>
          !(((workers.filter (fun w2 => w2.last_heartbeat < threshold)).map
            (fun w2 => w2.id)).contains w.id))).filter
          (fun w => (some l : Option String) == some w.id)).isEmpty = false := by
        cases hemp : ((workers.filter (fun w =>
            !(((workers.filter (fun w2 => w2.last_heartbeat < threshold)).map
              (fun w2 => w2.id)).contains w.id))).filter
            (fun w => (some l : Option String) == some w.id)).isEmpty with
        | false => rfl
        | true =>
          exfalso
          rw [List.isEmpty_iff.mp hemp] at hjmem
          cases hjmem
      have hall : ((workers.filter (fun w =>
          !(((workers.filter (fun w2 => w2.last_heartbeat < threshold)).map
            (fun w2 => w2.id)).contains w.id))).filter
          (fun w => (some l : Option String) == some w.id)).any
          (fun w => w.last_heartbeat < threshold) = false := by
        refine List.any_eq_false.mpr ?_
        intro w hw
        have hw1 := List.mem_filter.mp hw
        have hw2 := List.mem_filter.mp hw1.1
        have hwid : w.id = l := by
          have h2 := hw1.2
          simp only [beq_iff_eq, Option.some.injEq] at h2
          exact h2.symm
        have heq : w = w0 :=
          map_nodup_inj (fun w => w.id) workers w w0 hndW hw2.1 hw0m
            (by show w.id = w0.id; rw [hwid, hw0id])
        rw [heq]
        simpa using hw0live
      rw [hne, hall, hnotstale, hex]
      simp
    · have hex' : (workers.any (fun w => w.id == l && !(w.last_heartbeat < threshold))) =
          false := by simpa using hex
      by_cases hw : (workers.any (fun w => w.id == l)) = true
      · obtain ⟨w0, hw0m, hw0id'⟩ := List.any_eq_true.mp hw
        have hw0id : w0.id = l := by simpa using hw0id'
        have hw0stale : w0.last_heartbeat < threshold := by
          by_contra hlive
          have hany : (workers.any (fun w => w.id == l && !(w.last_heartbeat < threshold))) =
              true :=
            List.any_eq_true.mpr ⟨w0, hw0m, by simp [hw0id, hlive]⟩
          rw [hany] at hex'
          cases hex'
        have hstale : ((workers.filter (fun w2 => w2.last_heartbeat < threshold)).map
            (fun w2 => w2.id)).contains l = true := by
          have hmem : l ∈ (workers.filter (fun w2 => w2.last_heartbeat < threshold)).map
              (fun w2 => w2.id) :=
            List.mem_map.mpr ⟨w0,
              List.mem_filter.mpr ⟨hw0m, by simpa using hw0stale⟩, hw0id⟩
          simpa using hmem
        rw [hstale, hex']
        simp
      · have hw' : (workers.any (fun w => w.id == l)) = false := by simpa using hw
        have hj : (workers.filter (fun w =>
            !(((workers.filter (fun w2 => w2.last_heartbeat < threshold)).map
              (fun w2 => w2.id)).contains w.id))).filter
            (fun w => (some l : Option String) == some w.id) = [] := by
          refine List.filter_eq_nil_iff.mpr ?_
          intro w hwm hpred
          have hwm2 := List.mem_filter.mp hwm
          have hwid : w.id = l := by
            simp only [beq_iff_eq, Option.some.injEq] at hpred
            exact hpred.symm
          have hany : (workers.any (fun w => w.id == l)) = true :=
            List.any_eq_true.mpr ⟨w, hwm2.1, by simp [hwid]⟩
          rw [hany] at hw'
          cases hw'
        rw [hj, hex']
        simp

/-- C2: one reaper pass rewrites exactly the locked-status accounts whose
`locked_by` names no worker or only a stale-heartbeat worker — status
LOCKED/UPLOADING to DOWNLOADING and PROCESSING to IDLE with the lease
cleared — and leaves every account whose owner has a recent heartbeat
unchanged. -/
theorem C2_reaper_spec (now : Int) (db : DB)
    (hndA : (db.accounts.map (fun x => x.id)).Nodup)
    (hndW : (db.workers.map (fun w => w.id)).Nodup) :
    ∀ a ∈ db.accounts,
      (clean_stale_seedrs_and_workers now db).accounts.find? (fun x => x.id == a.id) =
        some (reapAccountSpec db.workers (now - 40) a) := by
  intro a ha
  set staleIds : List String :=
    (db.workers.filter (fun w2 => w2.last_heartbeat < now - 40)).map (fun w2 => w2.id)
    with hstale_def
  set wafter : List Worker :=
    db.workers.filter (fun w => !(staleIds.contains w.id)) with hwafter_def
  set orphans : List Account :=
    db.accounts.filter (accountOrphanMatch wafter staleIds (now - 40)) with horph_def
  have hacc : (clean_stale_seedrs_and_workers now db).accounts =
      orphans.foldl (fun acc o2 =>
        updateFirst (fun x => x.id == o2.id)
          (fun x => { x with
                      status := some (mapOrphanStatus o2.status),
                      locked_by := none }) acc) db.accounts := rfl
  have hfd : ∀ o ∈ orphans, db.accounts.find? (fun x => x.id == o.id) = some o := by
    intro o ho
    have hom := List.mem_filter.mp ho
    simpa using find?_key_of_mem_nodup (fun x => x.id) o db.accounts hom.1 hndA
  have hnd : (orphans.map (fun x => x.id)).Nodup := by
    rw [horph_def]
    exact ((List.filter_sublist _).map (fun (x : Account) => x.id)).nodup hndA
  have hfold := orphanFold_find? orphans db.accounts hfd hnd
  by_cases hP : accountOrphanMatch wafter staleIds (now - 40) a = true
  · have haorph : a ∈ orphans := by
      rw [horph_def]
      exact List.mem_filter.mpr ⟨ha, hP⟩
    rw [hacc, hfold.1 a haorph]
    have hcond : (isLockedStatus a.status &&
        !(ownerLive db.workers (now - 40) a.locked_by)) = true := by
      rw [← accountOrphanMatch_eq_spec db.workers (now - 40) hndW a]
      exact hP
    have hlock : isLockedStatus a.status = true := (Bool.and_eq_true _ _ |>.mp hcond).1
    have hmap : mapOrphanStatus a.status =
        (if a.status == some "PROCESSING" then "IDLE" else "DOWNLOADING") := by
      have hl := hlock
      unfold isLockedStatus at hl
      simp only [Bool.or_eq_true, decide_eq_true_eq] at hl
      rcases hl with (h | h) | h <;> rw [h] <;> decide
    unfold reapAccountSpec
    rw [if_pos hcond, hmap]
  · have hP' : accountOrphanMatch wafter staleIds (now - 40) a = false := by
      simpa using hP
    have hnotin : ∀ o ∈ orphans, o.id ≠ a.id := by
      intro o ho heq
      have hom := List.mem_filter.mp ho
      have hoa : o = a :=
        map_nodup_inj (fun x => x.id) db.accounts o a hndA hom.1 ha
          (by show o.id = a.id; exact heq)
      rw [hoa, hP'] at hom
      exact Bool.false_ne_true hom.2
    rw [hacc, hfold.2 a.id hnotin]
    have hfa : db.accounts.find? (fun x => x.id == a.id) = some a := by
      simpa using find?_key_of_mem_nodup (fun x => x.id) a db.accounts ha hndA
    rw [hfa]
    have hcond : (isLockedStatus a.status &&
        !(ownerLive db.workers (now - 40) a.locked_by)) = false := by
      rw [← accountOrphanMatch_eq_spec db.workers (now - 40) hndW a]
      exact hP'
    unfold reapAccountSpec
    rw [if_neg (by rw [hcond]; exact Bool.false_ne_true)]

/-- C2 witness: the orphaned UPLOADING account of the fixture is reset to
DOWNLOADING with its lease cleared, by the theorem applied at the
concrete state. -/
theorem C2_witness :
    ((dbReap.accounts.map (fun x => x.id)).Nodup ∧
     (dbReap.workers.map (fun w => w.id)).Nodup) ∧
    (clean_stale_seedrs_and_workers 110 dbReap).accounts.find?
        (fun x => x.id == accOrph.id) =
      some (reapAccountSpec dbReap.workers (110 - 40) accOrph) :=
  ⟨⟨by decide, by decide⟩,
   C2_reaper_spec 110 dbReap (by decide) (by decide) accOrph (by decide)⟩
